import Mathlib

/-!
# Salt-and-pepper noise reduction (main.go)

A shallow embedding of the detection and reconstruction code of main.go,
followed by theorems about it.

Modelling conventions.

* A colour sample is represented by the four values its `RGBA()` method
  returns (uint32 values, kept as natural numbers).
* `bright` is Go's `uint32`: the sum in `calcBright` is reduced modulo `2^32`.
* Go's `int` coordinates are unbounded integers here; the coordinates of a
  decoded picture are far away from the 64-bit limits.
* An `image.Image` is its bounds together with its `At` method, a total
  function on all integer coordinates.
* A `for i := lo; i < hi; i++` loop is a left fold over `lo, lo+1, ..., hi-1`.
* The loop of `calculateColor` may run forever, so it carries a fuel argument
  bounding the number of rings and returns `none` when the fuel is used up.
* `sort.Sort` belongs to Go's standard library; `calculateColor` takes the sorting
  routine as an argument, and the theorems assume of it what `sort.Sort` guarantees.
* The destination of `cleanUp` is an `image.RGBA` of Go's standard library, whose
  `Set` keeps the high 8 bits of every 16-bit channel value.
-/

namespace SaltAndPepper

/-! ## Data model -/

/-- The values returned by `color.Color.RGBA()`. -/
structure Color where
  r : Nat
  g : Nat
  b : Nat
  a : Nat
deriving DecidableEq, Repr

/-- Go's `image.Point`. -/
structure Point where
  X : Int
  Y : Int
deriving DecidableEq, Repr

/-- Go's `image.Rectangle`. -/
structure Rectangle where
  Min : Point
  Max : Point
deriving DecidableEq, Repr

/-- Go's `image.Image` interface: `Bounds()` and `At(x, y)`. -/
structure Image where
  Bounds : Rectangle
  At : Int → Int → Color

/-- The struct `dirtyImg` of main.go; `salt` and `pepper` have type `bright` (uint32). -/
structure dirtyImg where
  img : Image
  salt : Nat
  pepper : Nat

/-- Go's `math.MaxUint32`. -/
def MaxUint32 : Nat := 4294967295

/-- Go's `color.Black` (`Gray16{0}`), as seen through `RGBA()`. -/
def Black : Color := ⟨0, 0, 0, 65535⟩

/-! ## Loops -/

/-- The values taken by `i` in `for i := lo; i < hi; i++`. -/
def intRange (lo hi : Int) : List Int :=
  (List.range (hi - lo).toNat).map (fun (k : Nat) => lo + (k : Int))

/-- The loop `for i := lo; i < hi; i++ { s = body i s }`. -/
def forRange {σ : Type} (lo hi : Int) (body : Int → σ → σ) (s : σ) : σ :=
  (intRange lo hi).foldl (fun s i => body i s) s

/-! ## The functions of main.go -/

/-- Function `calcBright` (main.go, lines 23-26): uint32 sum of the red, green and blue values. -/
def calcBright (c : Color) : Nat :=
  (c.r + c.g + c.b) % 2 ^ 32

/-- Function `colors.Less` (main.go, lines 31-35), on two samples. -/
def Less (ci cj : Color) : Bool :=
  let ib := calcBright ci
  let ij := calcBright cj
  decide (ib < ij)

/-- Function `getColor` (main.go, lines 40-46). -/
def getColor (x y : Int) (img : Image) : Color × Bool :=
  let bounds := img.Bounds
  if x < bounds.Min.X ∨ x ≥ bounds.Max.X ∨ y < bounds.Min.Y ∨ y ≥ bounds.Max.Y then
    (Black, false)
  else
    (img.At x y, true)

/-- Function `isDirty` (main.go, lines 79-82). -/
def isDirty (di : dirtyImg) (c : Color) : Bool :=
  let b := calcBright c
  b == di.salt || b == di.pepper

/-- Function `collectColor` (main.go, lines 48-53); the slice behind the pointer is passed and returned. -/
def collectColor (di : dirtyImg) (x y : Int) (colors : List Color) : List Color :=
  let (c, ok) := getColor x y di.img
  if ok && !isDirty di c then colors ++ [c] else colors

/-- Function `collectRing` (main.go, lines 55-68). -/
def collectRing (di : dirtyImg) (x y : Int) (colors : List Color) (ring : Int) : List Color :=
  let colors := forRange (x - ring) (x + ring) (fun i cs => collectColor di i (y - ring) cs) colors
  let colors := forRange (x - ring) (x + ring) (fun i cs => collectColor di i (y + ring) cs) colors
  let colors := forRange (y - ring + 1) (y + ring - 1) (fun i cs => collectColor di (x - ring) i cs) colors
  let colors := forRange (y - ring + 1) (y + ring - 1) (fun i cs => collectColor di (x + ring) i cs) colors
  colors

/-- The loop `for ring := 1; len(colors) == 0; ring++ { di.collectRing(x, y, &colors, ring) }`
of `calculateColor` (main.go, lines 72-74), started at `ring` with `colors`; `fuel` bounds the
number of times the body runs, and `none` means the bound was reached with `colors` still empty. -/
def ringLoop (di : dirtyImg) (x y : Int) : Nat → Int → List Color → Option (List Color)
  | 0, _, colors => if colors.length = 0 then none else some colors
  | fuel + 1, ring, colors =>
    if colors.length = 0 then ringLoop di x y fuel (ring + 1) (collectRing di x y colors ring)
    else some colors

/-- Function `calculateColor` (main.go, lines 70-77). `sortFn` is the effect of `sort.Sort(colors)` on
the slice; an index out of range (a panic in Go) gives `none`, like a loop that ran out of fuel. -/
def calculateColor (sortFn : List Color → List Color) (fuel : Nat) (di : dirtyImg) (x y : Int) :
    Option Color :=
  match ringLoop di x y fuel 1 [] with
  | none => none
  | some colors =>
    let colors := sortFn colors
    colors[colors.length / 2]?

/-- Function `findSaltAndPepper` (main.go, lines 84-99). The outer loop variable `y` runs over
`bounds.Min.X .. bounds.Max.X` and the inner `x` over `bounds.Min.Y .. bounds.Max.Y`,
as in the source. -/
def findSaltAndPepper (di : dirtyImg) : dirtyImg :=
  let bounds := di.img.Bounds
  let di := { di with salt := 0 }
  let di := { di with pepper := MaxUint32 }
  forRange bounds.Min.X bounds.Max.X (fun y di =>
    forRange bounds.Min.Y bounds.Max.Y (fun x di =>
      let b := calcBright (di.img.At x y)
      let di := if di.salt < b then { di with salt := b } else di
      let di := if di.pepper > b then { di with pepper := b } else di
      di) di) di

/-! ## The destination image of `cleanUp`

`cleanUp` writes into `image.NewRGBA(bounds)`, a picture of Go's standard library that
keeps 8 bits per channel. -/

/-- Go's `color.RGBAModel.Convert` followed by `color.RGBA.RGBA()`: each channel value `v` is
stored as `uint8(v >> 8)` and read back as `w | w << 8`, that is `w * 257`. -/
def rgbaModel (c : Color) : Color :=
  ⟨(c.r / 256 % 256) * 257, (c.g / 256 % 256) * 257, (c.b / 256 % 256) * 257,
   (c.a / 256 % 256) * 257⟩

/-- Go's `image.NewRGBA(r)`: every pixel is the zero `color.RGBA`. -/
def NewRGBA (r : Rectangle) : Image :=
  ⟨r, fun _ _ => ⟨0, 0, 0, 0⟩⟩

/-- Go's `(*image.RGBA).Set`: nothing outside the rectangle, the converted colour inside. -/
def Image.Set (dst : Image) (x y : Int) (c : Color) : Image :=
  if dst.Bounds.Min.X ≤ x ∧ x < dst.Bounds.Max.X ∧ dst.Bounds.Min.Y ≤ y ∧ y < dst.Bounds.Max.Y then
    { dst with At := fun x1 y1 => if x1 = x ∧ y1 = y then rgbaModel c else dst.At x1 y1 }
  else dst

/-- Function `cleanUp` (main.go, lines 101-116). The state of the two loops is the destination picture,
or `none` once a call of `calculateColor` has not returned within `fuel` rings. -/
def cleanUp (sortFn : List Color → List Color) (fuel : Nat) (di : dirtyImg) : Option dirtyImg :=
  let di := findSaltAndPepper di
  let bounds := di.img.Bounds
  let dst := NewRGBA bounds
  let dst := forRange bounds.Min.Y bounds.Max.Y (fun y dst =>
    forRange bounds.Min.X bounds.Max.X (fun x dst =>
      match dst with
      | none => none
      | some dst =>
        let c := di.img.At x y
        let c := if isDirty di c then calculateColor sortFn fuel di x y else some c
        match c with
        | none => none
        | some c => some (dst.Set x y c)) dst) (some dst)
  match dst with
  | none => none
  | some dst => some { di with img := dst }

/-! ## Auxiliary definitions used in the statements -/

/-- The point `(x, y)` lies in the bounds of the image. -/
def inBounds (img : Image) (x y : Int) : Prop :=
  img.Bounds.Min.X ≤ x ∧ x < img.Bounds.Max.X ∧ img.Bounds.Min.Y ≤ y ∧ y < img.Bounds.Max.Y

instance (img : Image) (x y : Int) : Decidable (inBounds img x y) := by
  unfold inBounds; infer_instance

/-- The coordinates handed to `collectColor` by `collectRing`, in the order of the four loops. -/
def ringCoords (x y ring : Int) : List (Int × Int) :=
  (intRange (x - ring) (x + ring)).map (fun i => (i, y - ring)) ++
  (intRange (x - ring) (x + ring)).map (fun i => (i, y + ring)) ++
  (intRange (y - ring + 1) (y + ring - 1)).map (fun i => (x - ring, i)) ++
  (intRange (y - ring + 1) (y + ring - 1)).map (fun i => (x + ring, i))

/-- The candidate collection after `collectRing` has run for the radii `1, ..., r`. -/
def collectRings (di : dirtyImg) (x y : Int) : Nat → List Color
  | 0 => []
  | r + 1 => collectRing di x y (collectRings di x y r) ((r : Int) + 1)

/-- Chebyshev distance between `(x, y)` and `(i, j)`. -/
def chebyshev (x y i j : Int) : Nat :=
  max (i - x).natAbs (j - y).natAbs

/-- A picture anchored at the origin given by its rows; outside its bounds `At` gives the zero
colour, as the picture types of Go's standard library do. -/
def gridImage (width height : Nat) (rows : List (List Color)) : Image :=
  ⟨⟨⟨0, 0⟩, ⟨width, height⟩⟩, fun x y =>
    if 0 ≤ x ∧ x < width ∧ 0 ≤ y ∧ y < height then
      ((rows.getD y.toNat []).getD x.toNat ⟨0, 0, 0, 0⟩)
    else ⟨0, 0, 0, 0⟩⟩

/-- An opaque grey sample with 16-bit value `v` in every channel (brightness `3 * v`). -/
def gray16 (v : Nat) : Color := ⟨v, v, v, 65535⟩

/-- The order behind `colors.Less`: brightness, ascending. -/
def brightLE (a b : Color) : Prop := calcBright a ≤ calcBright b

instance : DecidableRel brightLE := fun a b => by unfold brightLE; infer_instance

instance : IsTotal Color brightLE := ⟨fun a b => Nat.le_total (calcBright a) (calcBright b)⟩

instance : IsTrans Color brightLE :=
  ⟨fun a b _ hab hbc => Nat.le_trans (show calcBright a ≤ calcBright b from hab) hbc⟩

/-- What `sort.Sort` guarantees for `colors`: the slice is rearranged, and afterwards no element
is `Less` than an earlier one. -/
structure SortsByBright (sortFn : List Color → List Color) : Prop where
  perm : ∀ l, (sortFn l).Perm l
  sorted : ∀ l, (sortFn l).Pairwise (fun a b => Less b a = false)

/-- Insertion sort by brightness, the stable sort `sort.Sort` performs on a short slice. -/
def insertionSortColors (l : List Color) : List Color :=
  l.insertionSort brightLE

/-- The image with the same bounds and the same pixels inside them, and `other` outside. -/
def withOutside (img : Image) (other : Int → Int → Color) : Image :=
  ⟨img.Bounds, fun i j => if inBounds img i j then img.At i j else other i j⟩

/-! ## Concrete pictures -/

/-- A picture two pixels wide and one pixel high, with brightness 15 at `(0, 0)` and 27 at
`(1, 0)`. -/
def imgWide : Image := gridImage 2 1 [[gray16 5, gray16 9]]

/-- A 3x3 picture whose only clean pixel is the centre `(1, 1)` (brightness 300); `(2, 1)` has
the largest brightness (600) and the seven others the smallest (0). -/
def imgCentre : Image :=
  gridImage 3 3 [[gray16 0, gray16 0, gray16 0],
                 [gray16 0, gray16 100, gray16 200],
                 [gray16 0, gray16 0, gray16 0]]

/-- A 2x2 picture with 16-bit grey samples: `(0, 0)` is the darkest and `(1, 1)` the brightest
pixel, `(1, 0)` and `(0, 1)` lie in between. -/
def imgDeep : Image :=
  gridImage 2 2 [[gray16 0, gray16 255],
                 [gray16 514, gray16 65535]]

/-- An opaque sample with 16-bit red value `v` and no green or blue (brightness `v`). -/
def red16 (v : Nat) : Color := ⟨v, 0, 0, 65535⟩

/-- A 3x3 picture whose centre is the darkest and whose pixel `(2, 0)` is the brightest; the
ring of radius 1 around the centre finds the brightnesses 40, 10, 30, 20, in this order. -/
def imgMedian : Image :=
  gridImage 3 3 [[red16 40, red16 10, red16 200],
                 [red16 100, red16 0, red16 100],
                 [red16 30, red16 20, red16 100]]

/-- The sample `cleanUp` hands to `dst.Set` at `(x, y)` (main.go, lines 108-111), for `di`
with its thresholds computed: the pixel itself when it is clean, otherwise the result of
`calculateColor`, if there is one. -/
def pixelValue (sortFn : List Color → List Color) (fuel : Nat) (di : dirtyImg) (x y : Int) :
    Option Color :=
  if isDirty di (di.img.At x y) then calculateColor sortFn fuel di x y else some (di.img.At x y)

/-- The picture `out` holds at `(a, b)` the sample computed for `(a, b)`, as stored by `Set`. -/
def Stored (sortFn : List Color → List Color) (fuel : Nat) (di : dirtyImg) (out : Image)
    (a b : Int) : Prop :=
  ∃ c, pixelValue sortFn fuel di a b = some c ∧ out.At a b = rgbaModel c

/-- A sample that the 8-bit destination picture stores without loss: every channel value `v` has
the form `w * 257` with `w < 256`. -/
def eightBit (c : Color) : Prop := rgbaModel c = c

instance (c : Color) : Decidable (eightBit c) := by
  unfold eightBit; infer_instance

/-- A picture of one pixel whose bounds are `[5, 6) x [0, 1)`, as a sub-image has them; the
pixel is an 8-bit grey of brightness 771. -/
def imgOffset : Image :=
  ⟨⟨⟨5, 0⟩, ⟨6, 1⟩⟩, fun x y => if x = 5 ∧ y = 0 then gray16 257 else ⟨0, 0, 0, 0⟩⟩

/-! ## Definitions for the scan, the rings and Scenario A -/

/-- The thresholds `s` after the scan of `findSaltAndPepper` has read the coordinates in `S`:
salt bounds their brightness from above and pepper from below, and both are attained on `S`,
or nothing has been read and the thresholds are the initial ones. -/
def ScanInv (img : Image) (S : Int → Int → Prop) (s : dirtyImg) : Prop :=
  s.img = img ∧
  (∀ a b, S a b → calcBright (img.At a b) ≤ s.salt ∧ s.pepper ≤ calcBright (img.At a b)) ∧
  (((¬ ∃ a b, S a b) ∧ s.salt = 0 ∧ s.pepper = MaxUint32) ∨
    ((∃ a b, S a b ∧ s.salt = calcBright (img.At a b)) ∧
      (∃ a b, S a b ∧ s.pepper = calcBright (img.At a b))))

/-- The body of the inner loop of `findSaltAndPepper` (main.go, lines 90-96) for the loop
variables `x` and `y`. -/
def scanStep (y x : Int) (di : dirtyImg) : dirtyImg :=
  let b := calcBright (di.img.At x y)
  let di := if di.salt < b then { di with salt := b } else di
  let di := if di.pepper > b then { di with pepper := b } else di
  di

/-- A picture two pixels wide and one pixel high whose two pixels have the same brightness 15. -/
def imgWideUniform : Image := gridImage 2 1 [[gray16 5, gray16 5]]

/-- A picture of a single pixel at the origin, of brightness 21. -/
def imgOne : Image := gridImage 1 1 [[gray16 7]]

/-- The test of `collectColor` on a coordinate: inside the bounds and not dirty. -/
def cleanAt (di : dirtyImg) (p : Int × Int) : Bool :=
  decide (inBounds di.img p.1 p.2) && !isDirty di (di.img.At p.1 p.2)

/-- The samples of the clean in-bounds pixels among the coordinates `collectRing` visits at
radius `ring`, in the order of the visit. -/
def ringSamples (di : dirtyImg) (x y ring : Int) : List Color :=
  ((ringCoords x y ring).filter (cleanAt di)).map (fun p => di.img.At p.1 p.2)

/-- The coordinates visited by `collectRing` for the radii `1, ..., r`, in the order of the
visit. -/
def visitedCoords (x y : Int) : Nat → List (Int × Int)
  | 0 => []
  | r + 1 => visitedCoords x y r ++ ringCoords x y ((r : Int) + 1)

/-- The picture `img` with the sample at `(x1, y1)` replaced by `c1` and the sample at
`(x2, y2)` by `c2`. -/
def replaceAt (img : Image) (x1 y1 x2 y2 : Int) (c1 c2 : Color) : Image :=
  ⟨img.Bounds, fun a b =>
    if a = x1 ∧ b = y1 then c1 else if a = x2 ∧ b = y2 then c2 else img.At a b⟩

/-- Scenario A: a 3x3 picture anchored at the origin whose centre has brightness 0, whose corner
`(cx, cy)` has brightness 200 and whose seven other pixels have brightness 100. -/
def ScenarioA (img : Image) (cx cy : Int) : Prop :=
  img.Bounds = ⟨⟨0, 0⟩, ⟨3, 3⟩⟩ ∧ (cx = 0 ∨ cx = 2) ∧ (cy = 0 ∨ cy = 2) ∧
  calcBright (img.At 1 1) = 0 ∧ calcBright (img.At cx cy) = 200 ∧
  ∀ a b, inBounds img a b → ¬ (a = 1 ∧ b = 1) → ¬ (a = cx ∧ b = cy) →
    calcBright (img.At a b) = 100

/-- An instance of Scenario A with the corner `(0, 0)`. -/
def imgScenario : Image :=
  gridImage 3 3 [[red16 200, red16 100, red16 100],
                 [red16 100, red16 0, red16 100],
                 [red16 100, red16 100, red16 100]]

/-! # Theorems -/

/-! ## Loops -/

theorem mem_intRange (lo hi i : Int) : i ∈ intRange lo hi ↔ lo ≤ i ∧ i < hi := by
  unfold intRange
  simp only [List.mem_map, List.mem_range]
  constructor
  · rintro ⟨k, hk, rfl⟩
    omega
  · rintro ⟨h1, h2⟩
    exact ⟨(i - lo).toNat, by omega, by omega⟩

theorem collectRing_eq_foldl (di : dirtyImg) (x y : Int) (colors : List Color) (ring : Int) :
    collectRing di x y colors ring =
      (ringCoords x y ring).foldl (fun cs p => collectColor di p.1 p.2 cs) colors := by
  simp only [collectRing, ringCoords, forRange, List.foldl_append, List.foldl_map]

theorem mem_ringCoords (x y ring i j : Int) :
    (i, j) ∈ ringCoords x y ring ↔
      ((x - ring ≤ i ∧ i < x + ring) ∧ (j = y - ring ∨ j = y + ring)) ∨
      ((i = x - ring ∨ i = x + ring) ∧ (y - ring + 1 ≤ j ∧ j ≤ y + ring - 2)) := by
  simp only [ringCoords, List.mem_append, List.mem_map, mem_intRange, Prod.mk.injEq]
  constructor
  · rintro (((⟨k, hk, rfl, rfl⟩ | ⟨k, hk, rfl, rfl⟩) | ⟨k, hk, rfl, rfl⟩) | ⟨k, hk, rfl, rfl⟩)
    · exact Or.inl ⟨hk, Or.inl rfl⟩
    · exact Or.inl ⟨hk, Or.inr rfl⟩
    · exact Or.inr ⟨Or.inl rfl, by omega⟩
    · exact Or.inr ⟨Or.inr rfl, by omega⟩
  · rintro (⟨hk, rfl | rfl⟩ | ⟨rfl | rfl, hk⟩)
    · exact Or.inl (Or.inl (Or.inl ⟨i, hk, rfl, rfl⟩))
    · exact Or.inl (Or.inl (Or.inr ⟨i, hk, rfl, rfl⟩))
    · exact Or.inl (Or.inr ⟨j, by omega, rfl, rfl⟩)
    · exact Or.inr ⟨j, by omega, rfl, rfl⟩

/-! ## Reading the image -/

theorem getColor_eq (x y : Int) (img : Image) :
    getColor x y img = if inBounds img x y then (img.At x y, true) else (Black, false) := by
  unfold getColor inBounds
  by_cases h : img.Bounds.Min.X ≤ x ∧ x < img.Bounds.Max.X ∧ img.Bounds.Min.Y ≤ y ∧ y < img.Bounds.Max.Y
  · rw [if_pos h, if_neg (by omega)]
  · rw [if_neg h, if_pos (by omega)]

theorem getColor_withOutside (x y : Int) (img : Image) (other : Int → Int → Color) :
    getColor x y (withOutside img other) = getColor x y img := by
  rw [getColor_eq, getColor_eq]
  by_cases h : inBounds img x y
  · have h2 : inBounds (withOutside img other) x y := h
    rw [if_pos h, if_pos h2]
    simp [withOutside, h]
  · have h2 : ¬ inBounds (withOutside img other) x y := h
    rw [if_neg h, if_neg h2]

theorem collectColor_eq (di : dirtyImg) (x y : Int) (colors : List Color) :
    collectColor di x y colors =
      if inBounds di.img x y ∧ isDirty di (di.img.At x y) = false then
        colors ++ [di.img.At x y] else colors := by
  unfold collectColor
  rw [getColor_eq]
  by_cases h : inBounds di.img x y
  · cases hd : isDirty di (di.img.At x y) <;> simp [h, hd]
  · simp [h]

theorem collectColor_withOutside (di : dirtyImg) (other : Int → Int → Color) (x y : Int)
    (colors : List Color) :
    collectColor ⟨withOutside di.img other, di.salt, di.pepper⟩ x y colors =
      collectColor di x y colors := by
  unfold collectColor
  simp only [getColor_withOutside]
  rfl

theorem collectRing_withOutside (di : dirtyImg) (other : Int → Int → Color) (x y : Int)
    (colors : List Color) (ring : Int) :
    collectRing ⟨withOutside di.img other, di.salt, di.pepper⟩ x y colors ring =
      collectRing di x y colors ring := by
  unfold collectRing
  simp only [collectColor_withOutside]

theorem ringLoop_withOutside (di : dirtyImg) (other : Int → Int → Color) (x y : Int)
    (fuel : Nat) (ring : Int) (colors : List Color) :
    ringLoop ⟨withOutside di.img other, di.salt, di.pepper⟩ x y fuel ring colors =
      ringLoop di x y fuel ring colors := by
  induction fuel generalizing ring colors with
  | zero => rfl
  | succ n ih =>
    simp only [ringLoop]
    rw [collectRing_withOutside, ih]

/-- C7: `getColor` answers `ok = true` exactly on the coordinates inside the bounds, where it
returns the pixel read by `At`; everywhere else it returns `(color.Black, false)`. The image
is read at in-bounds coordinates only: replacing everything outside the bounds by arbitrary
other samples changes the result of neither `getColor`, nor `collectRing` for any centre and
radius, nor the whole ring loop of the reconstruction. -/
theorem getColor_reads_only_in_bounds (img : Image) (x y : Int) :
    ((getColor x y img).2 = true ↔
        (img.Bounds.Min.X ≤ x ∧ x < img.Bounds.Max.X ∧ img.Bounds.Min.Y ≤ y ∧ y < img.Bounds.Max.Y)) ∧
    getColor x y img = (if inBounds img x y then (img.At x y, true) else (Black, false)) ∧
    (∀ other : Int → Int → Color, getColor x y (withOutside img other) = getColor x y img) ∧
    (∀ (other : Int → Int → Color) (salt pepper : Nat) (colors : List Color) (ring : Int),
        collectRing ⟨withOutside img other, salt, pepper⟩ x y colors ring =
          collectRing ⟨img, salt, pepper⟩ x y colors ring) ∧
    (∀ (other : Int → Int → Color) (salt pepper : Nat) (fuel : Nat),
        ringLoop ⟨withOutside img other, salt, pepper⟩ x y fuel 1 [] =
          ringLoop ⟨img, salt, pepper⟩ x y fuel 1 []) := by
  refine ⟨?_, getColor_eq x y img, getColor_withOutside x y img, ?_, ?_⟩
  · rw [getColor_eq]
    by_cases h : inBounds img x y
    · rw [if_pos h]; exact ⟨fun _ => h, fun _ => rfl⟩
    · rw [if_neg h]; exact ⟨fun h1 => by simp at h1, fun h1 => absurd h1 h⟩
  · intro other salt pepper colors ring
    exact collectRing_withOutside ⟨img, salt, pepper⟩ other x y colors ring
  · intro other salt pepper fuel
    exact ringLoop_withOutside ⟨img, salt, pepper⟩ other x y fuel 1 []

/-- C10: for channel values of at most 65535 `calcBright` is the plain sum `r + g + b`, which
is at most 196605 (no wrap-around in uint32), whatever the alpha value is. -/
theorem calcBright_no_overflow (r g b a : Nat) (hr : r ≤ 65535) (hg : g ≤ 65535)
    (hb : b ≤ 65535) :
    calcBright ⟨r, g, b, a⟩ = r + g + b ∧ calcBright ⟨r, g, b, a⟩ ≤ 196605 ∧
      ∀ a2 : Nat, calcBright ⟨r, g, b, a2⟩ = calcBright ⟨r, g, b, a⟩ := by
  have h : calcBright ⟨r, g, b, a⟩ = r + g + b := by
    unfold calcBright
    exact Nat.mod_eq_of_lt (by norm_num; omega)
  refine ⟨h, by rw [h]; omega, fun a2 => rfl⟩

theorem calcBright_no_overflow_witness :
    (65535 ≤ 65535 ∧ 65535 ≤ 65535 ∧ 65535 ≤ 65535) ∧
    (calcBright ⟨65535, 65535, 65535, 65535⟩ = 65535 + 65535 + 65535 ∧
      calcBright ⟨65535, 65535, 65535, 65535⟩ ≤ 196605 ∧
      ∀ a2 : Nat, calcBright ⟨65535, 65535, 65535, a2⟩ =
        calcBright ⟨65535, 65535, 65535, 65535⟩) :=
  ⟨by decide, calcBright_no_overflow 65535 65535 65535 65535 (by decide) (by decide) (by decide)⟩

/-- C9: `collectRing` hands to `collectColor`, one after the other, the coordinates of
`ringCoords`, and these are exactly `(i, y-r)` and `(i, y+r)` for `x-r ≤ i < x+r` together
with `(x-r, j)` and `(x+r, j)` for `y-r+1 ≤ j ≤ y+r-2`. -/
theorem collectRing_visits (di : dirtyImg) (x y : Int) (colors : List Color) (r : Int) :
    collectRing di x y colors r =
        (ringCoords x y r).foldl (fun cs p => collectColor di p.1 p.2 cs) colors ∧
    ∀ i j : Int, (i, j) ∈ ringCoords x y r ↔
      ((x - r ≤ i ∧ i < x + r) ∧ (j = y - r ∨ j = y + r)) ∨
      ((i = x - r ∨ i = x + r) ∧ (y - r + 1 ≤ j ∧ j ≤ y + r - 2)) :=
  ⟨collectRing_eq_foldl di x y colors r, mem_ringCoords x y r⟩
/-! ## Folds -/

theorem forRange_induction {σ : Type} (P : σ → Prop) (lo hi : Int) (body : Int → σ → σ) (s : σ)
    (h0 : P s) (hstep : ∀ i s, lo ≤ i → i < hi → P s → P (body i s)) :
    P (forRange lo hi body s) := by
  unfold forRange
  have key : ∀ (l : List Int) (s : σ), (∀ i ∈ l, lo ≤ i ∧ i < hi) → P s →
      P (l.foldl (fun s i => body i s) s) := by
    intro l
    induction l with
    | nil => intro s _ hs; exact hs
    | cons a t ih =>
      intro s hl hs
      rw [List.foldl_cons]
      have ha := hl a (List.mem_cons_self a t)
      exact ih _ (fun i hi => hl i (List.mem_cons_of_mem a hi)) (hstep a s ha.1 ha.2 hs)
  exact key _ s (fun i hmem => (mem_intRange lo hi i).1 hmem) h0

theorem findSaltAndPepper_img (di : dirtyImg) : (findSaltAndPepper di).img = di.img := by
  unfold findSaltAndPepper
  dsimp only
  refine forRange_induction (fun (s : dirtyImg) => s.img = di.img) _ _ _ _ rfl ?_
  intro y s _ _ hs
  refine forRange_induction (fun (s : dirtyImg) => s.img = di.img) _ _ _ _ hs ?_
  intro x s _ _ hs
  dsimp only
  split_ifs <;> exact hs

theorem foldl_collectColor_unchanged (di : dirtyImg) (l : List (Int × Int)) (cs : List Color)
    (h : ∀ p ∈ l, ¬ (inBounds di.img p.1 p.2 ∧ isDirty di (di.img.At p.1 p.2) = false)) :
    l.foldl (fun cs p => collectColor di p.1 p.2 cs) cs = cs := by
  induction l generalizing cs with
  | nil => rfl
  | cons a t ih =>
    rw [List.foldl_cons, collectColor_eq, if_neg (h a (List.mem_cons_self a t))]
    exact ih cs (fun p hp => h p (List.mem_cons_of_mem a hp))

theorem collectRing_unchanged (di : dirtyImg) (x y : Int) (cs : List Color) (ring : Int)
    (h : ∀ i j, (i, j) ∈ ringCoords x y ring →
      ¬ (inBounds di.img i j ∧ isDirty di (di.img.At i j) = false)) :
    collectRing di x y cs ring = cs := by
  rw [collectRing_eq_foldl]
  exact foldl_collectColor_unchanged di _ cs (fun p hp => h p.1 p.2 hp)

theorem ringLoop_none_of_rings_empty (di : dirtyImg) (x y : Int) (fuel : Nat) (start : Int)
    (h : ∀ ring : Int, start ≤ ring → collectRing di x y [] ring = []) :
    ringLoop di x y fuel start [] = none := by
  induction fuel generalizing start with
  | zero => rfl
  | succ n ih =>
    simp only [ringLoop, List.length_nil, if_true]
    rw [h start (le_refl _)]
    exact ih (start + 1) (fun ring hr => h ring (by omega))

theorem collectRings_nil_of_rings_empty (di : dirtyImg) (x y : Int)
    (h : ∀ ring : Int, 1 ≤ ring → collectRing di x y [] ring = []) (r : Nat) :
    collectRings di x y r = [] := by
  induction r with
  | zero => rfl
  | succ n ih =>
    simp only [collectRings]
    rw [ih]
    exact h _ (by omega)

/-- C1, evaluated on a picture that is not square: on the 2x1 picture `imgWide` the scan of
`findSaltAndPepper` reads `At(0, 0)` and `At(0, 1)`, never the in-bounds pixel `(1, 0)`; it
leaves salt = 15 although the pixel `(1, 0)` has brightness 27, and pepper = 0 although the
smallest brightness of a pixel is 15. -/
theorem findSaltAndPepper_wide_picture :
    imgWide.Bounds = ⟨⟨0, 0⟩, ⟨2, 1⟩⟩ ∧
    calcBright (imgWide.At 0 0) = 15 ∧ calcBright (imgWide.At 1 0) = 27 ∧
    (findSaltAndPepper ⟨imgWide, 0, 0⟩).salt = 15 ∧
    (findSaltAndPepper ⟨imgWide, 0, 0⟩).pepper = 0 := by
  refine ⟨rfl, ?_, ?_, ?_, ?_⟩ <;> decide

/-- C8, evaluated at centre `(0, 1)` and radius 1: `collectRing` calls `collectColor` on
`(-1, 0)`, `(0, 0)`, `(-1, 2)` and `(0, 2)` and on nothing else. The coordinates `(1, 1)`,
`(-1, 1)`, `(1, 0)` and `(1, 2)` are at Chebyshev distance 1 from the centre and are not visited,
so no row strictly between `y-1` and `y+1` is covered. On the picture `imgCentre` the clean
in-bounds pixel `(1, 1)` is therefore not collected by the ring of radius 1 around `(0, 1)`. -/
theorem collectRing_radius_one_misses_neighbours :
    (∀ (di : dirtyImg) (cs : List Color), collectRing di 0 1 cs 1 =
      collectColor di 0 2 (collectColor di (-1) 2 (collectColor di 0 0
        (collectColor di (-1) 0 cs)))) ∧
    ringCoords 0 1 1 = [(-1, 0), (0, 0), (-1, 2), (0, 2)] ∧
    chebyshev 0 1 1 1 = 1 ∧ (1, 1) ∉ ringCoords 0 1 1 ∧
    chebyshev 0 1 (-1) 1 = 1 ∧ (-1, 1) ∉ ringCoords 0 1 1 ∧
    chebyshev 0 1 1 0 = 1 ∧ (1, 0) ∉ ringCoords 0 1 1 ∧
    chebyshev 0 1 1 2 = 1 ∧ (1, 2) ∉ ringCoords 0 1 1 ∧
    inBounds imgCentre 1 1 ∧
    isDirty (findSaltAndPepper ⟨imgCentre, 0, 0⟩) (imgCentre.At 1 1) = false ∧
    collectRing (findSaltAndPepper ⟨imgCentre, 0, 0⟩) 0 1 [] 1 = [] := by
  refine ⟨fun di cs => rfl, ?_⟩
  decide

theorem imgCentre_rings_empty (ring : Int) (h : 1 ≤ ring) :
    collectRing (findSaltAndPepper ⟨imgCentre, 0, 0⟩) 0 1 [] ring = [] := by
  rcases (by omega : ring = 1 ∨ ring = 2 ∨ 3 ≤ ring) with rfl | rfl | h3
  · decide
  · decide
  · apply collectRing_unchanged
    intro i j hm
    rw [mem_ringCoords] at hm
    rw [findSaltAndPepper_img]
    intro hb
    have hb1 := hb.1
    simp only [inBounds, imgCentre, gridImage] at hb1
    omega

/-- C2, evaluated on the 3x3 picture `imgCentre`: the centre `(1, 1)` is a clean in-bounds
pixel and `(0, 1)` is dirty, yet around `(0, 1)` the candidate collection is empty after the
rings of radius `1, ..., r` for every `r`, and `calculateColor` never returns, whatever the
fuel. The clean pixel is the right-hand neighbour of `(0, 1)`, which no ring visits. -/
theorem calculateColor_never_reaches_clean_neighbour :
    inBounds imgCentre 1 1 ∧
    isDirty (findSaltAndPepper ⟨imgCentre, 0, 0⟩) (imgCentre.At 1 1) = false ∧
    inBounds imgCentre 0 1 ∧
    isDirty (findSaltAndPepper ⟨imgCentre, 0, 0⟩) (imgCentre.At 0 1) = true ∧
    (∀ r : Nat, collectRings (findSaltAndPepper ⟨imgCentre, 0, 0⟩) 0 1 r = []) ∧
    (∀ (sortFn : List Color → List Color) (fuel : Nat),
      calculateColor sortFn fuel (findSaltAndPepper ⟨imgCentre, 0, 0⟩) 0 1 = none) := by
  refine ⟨by decide, by decide, by decide, by decide, ?_, ?_⟩
  · exact collectRings_nil_of_rings_empty _ 0 1 imgCentre_rings_empty
  · intro sortFn fuel
    unfold calculateColor
    rw [ringLoop_none_of_rings_empty _ 0 1 fuel 1 imgCentre_rings_empty]
/-! ## Sorting and the median -/

theorem less_eq_false_iff (a b : Color) : Less b a = false ↔ brightLE a b := by
  simp [Less, brightLE]

theorem insertionSortColors_sorts : SortsByBright insertionSortColors := by
  constructor
  · intro l
    exact List.perm_insertionSort brightLE l
  · intro l
    have h := List.sorted_insertionSort brightLE l
    exact List.Pairwise.imp (fun {a b} hab => (less_eq_false_iff a b).2 hab) h

theorem ringLoop_ne_nil (di : dirtyImg) (x y : Int) (fuel : Nat) (ring : Int)
    (colors C : List Color) (h : ringLoop di x y fuel ring colors = some C) : C ≠ [] := by
  induction fuel generalizing ring colors with
  | zero =>
    simp only [ringLoop] at h
    split_ifs at h with h0
    cases h
    intro hc
    exact h0 (by rw [hc]; rfl)
  | succ n ih =>
    simp only [ringLoop] at h
    split_ifs at h with h0
    · exact ih _ _ h
    · cases h
      intro hc
      exact h0 (by rw [hc]; rfl)

theorem sorted_brightness_eq (sortFn : List Color → List Color) (hs : SortsByBright sortFn)
    (C : List Color) :
    (sortFn C).map calcBright = (C.map calcBright).insertionSort (fun a b => a ≤ b) := by
  apply List.eq_of_perm_of_sorted (r := fun (a b : Nat) => a ≤ b)
  · exact ((hs.perm C).map calcBright).trans (List.perm_insertionSort _ _).symm
  · unfold List.Sorted
    rw [List.pairwise_map]
    exact List.Pairwise.imp (fun {a b} hab => (less_eq_false_iff a b).1 hab) (hs.sorted C)
  · exact List.sorted_insertionSort _ _

/-- C3: when the ring loop of `calculateColor` stops with the candidate collection `C`, then `C`
has `n ≥ 1` elements, `calculateColor` returns a sample that is an element of `C`, and the
brightness of that sample is the entry at index `n / 2` of the brightnesses of `C` in ascending
order. This holds for every sorting routine that meets the contract of `sort.Sort`. -/
theorem calculateColor_returns_median (sortFn : List Color → List Color)
    (hs : SortsByBright sortFn) (fuel : Nat) (di : dirtyImg) (x y : Int) (C : List Color)
    (hC : ringLoop di x y fuel 1 [] = some C) :
    1 ≤ C.length ∧
    ∃ c, calculateColor sortFn fuel di x y = some c ∧ c ∈ C ∧
      ((C.map calcBright).insertionSort (fun a b => a ≤ b))[C.length / 2]? =
        some (calcBright c) := by
  have hne : C ≠ [] := ringLoop_ne_nil di x y fuel 1 [] C hC
  have hpos : 1 ≤ C.length := by
    cases C with
    | nil => exact absurd rfl hne
    | cons a t => simp
  have hlen : (sortFn C).length = C.length := (hs.perm C).length_eq
  have hidx : (sortFn C).length / 2 < (sortFn C).length := by omega
  refine ⟨hpos, (sortFn C)[(sortFn C).length / 2], ?_, ?_, ?_⟩
  · unfold calculateColor
    rw [hC]
    exact List.getElem?_eq_getElem hidx
  · exact (hs.perm C).mem_iff.1 (List.getElem_mem hidx)
  · rw [← sorted_brightness_eq sortFn hs C, List.getElem?_map, ← hlen,
      List.getElem?_eq_getElem hidx]
    rfl

theorem calculateColor_returns_median_witness :
    SortsByBright insertionSortColors ∧
    ringLoop (findSaltAndPepper ⟨imgMedian, 0, 0⟩) 1 1 1 1 [] =
      some [red16 40, red16 10, red16 30, red16 20] ∧
    (1 ≤ [red16 40, red16 10, red16 30, red16 20].length ∧
      ∃ c, calculateColor insertionSortColors 1 (findSaltAndPepper ⟨imgMedian, 0, 0⟩) 1 1 =
          some c ∧ c ∈ [red16 40, red16 10, red16 30, red16 20] ∧
        (([red16 40, red16 10, red16 30, red16 20].map calcBright).insertionSort
          (fun a b => a ≤ b))[[red16 40, red16 10, red16 30, red16 20].length / 2]? =
          some (calcBright c)) ∧
    calculateColor insertionSortColors 1 (findSaltAndPepper ⟨imgMedian, 0, 0⟩) 1 1 =
      some (red16 30) :=
  ⟨insertionSortColors_sorts, by decide,
    calculateColor_returns_median insertionSortColors insertionSortColors_sorts 1
      (findSaltAndPepper ⟨imgMedian, 0, 0⟩) 1 1 _ (by decide), by decide⟩
theorem intRange_empty (lo hi : Int) (h : hi ≤ lo) : intRange lo hi = [] := by
  unfold intRange
  have : (hi - lo).toNat = 0 := by omega
  rw [this]; rfl

theorem intRange_cons (lo hi : Int) (h : lo < hi) :
    intRange lo hi = lo :: intRange (lo + 1) hi := by
  unfold intRange
  have h1 : (hi - lo).toNat = (hi - (lo + 1)).toNat + 1 := by omega
  rw [h1, List.range_succ_eq_map, List.map_cons, List.map_map]
  congr 1
  · simp
  · apply List.map_congr_left
    intro k _
    simp only [Function.comp_apply, Nat.cast_succ]
    omega

theorem forRange_empty {σ : Type} (lo hi : Int) (body : Int → σ → σ) (s : σ) (h : hi ≤ lo) :
    forRange lo hi body s = s := by
  unfold forRange
  rw [intRange_empty lo hi h]; rfl

theorem forRange_cons {σ : Type} (lo hi : Int) (body : Int → σ → σ) (s : σ) (h : lo < hi) :
    forRange lo hi body s = forRange (lo + 1) hi body (body lo s) := by
  unfold forRange
  rw [intRange_cons lo hi h]; rfl

theorem forRange_counter_induction {σ : Type} (P : Int → σ → Prop) (lo hi : Int)
    (body : Int → σ → σ) (s : σ) (hle : lo ≤ hi) (h0 : P lo s)
    (hstep : ∀ i s, lo ≤ i → i < hi → P i s → P (i + 1) (body i s)) :
    P hi (forRange lo hi body s) := by
  have key : ∀ (n : Nat) (i : Int) (s : σ), (hi - i).toNat = n → lo ≤ i → i ≤ hi → P i s →
      P hi (forRange i hi body s) := by
    intro n
    induction n with
    | zero =>
      intro i s hn _ hi2 hP
      have : i = hi := by omega
      subst this
      rw [forRange_empty i i body s (le_refl _)]
      exact hP
    | succ m ih =>
      intro i s hn hi1 hi2 hP
      rw [forRange_cons i hi body s (by omega)]
      exact ih (i + 1) (body i s) (by omega) (by omega) (by omega)
        (hstep i s hi1 (by omega) hP)
  exact key _ lo s rfl (le_refl _) hle h0
/-! ## The destination picture -/

theorem Set_bounds (dst : Image) (x y : Int) (c : Color) :
    (dst.Set x y c).Bounds = dst.Bounds := by
  unfold Image.Set
  split_ifs <;> rfl

theorem Set_at_same (dst : Image) (x y : Int) (c : Color) (h : inBounds dst x y) :
    (dst.Set x y c).At x y = rgbaModel c := by
  unfold inBounds at h
  unfold Image.Set
  rw [if_pos h]
  simp

theorem Set_at_other (dst : Image) (x y : Int) (c : Color) (a b : Int)
    (h : ¬ (a = x ∧ b = y)) : (dst.Set x y c).At a b = dst.At a b := by
  unfold Image.Set
  split_ifs
  · simp [h]
  · rfl

theorem cleanUp_loops (sortFn : List Color → List Color) (fuel : Nat) (di : dirtyImg)
    (B : Rectangle) (o : Image)
    (h : forRange B.Min.Y B.Max.Y (fun y dst =>
      forRange B.Min.X B.Max.X (fun x dst =>
        match dst with
        | none => none
        | some dst =>
          match (if isDirty di (di.img.At x y) then calculateColor sortFn fuel di x y
            else some (di.img.At x y)) with
          | none => none
          | some c => some (dst.Set x y c)) dst) (some (NewRGBA B)) = some o) :
    o.Bounds = B ∧
    ∀ a b, (B.Min.X ≤ a ∧ a < B.Max.X ∧ B.Min.Y ≤ b ∧ b < B.Max.Y) →
      Stored sortFn fuel di o a b := by
  by_cases hY : B.Max.Y ≤ B.Min.Y
  · rw [forRange_empty _ _ _ _ hY] at h
    cases h
    exact ⟨rfl, fun a b hab => by omega⟩
  refine (fun hout => ?_) (forRange_counter_induction
    (fun (y : Int) (s : Option Image) => ∀ o, s = some o → o.Bounds = B ∧
      ∀ a b, (B.Min.Y ≤ b ∧ b < y ∧ B.Min.X ≤ a ∧ a < B.Max.X) → Stored sortFn fuel di o a b)
    B.Min.Y B.Max.Y _ (some (NewRGBA B)) (by omega) ?_ ?_ o h)
  · obtain ⟨hb, hs⟩ := hout
    exact ⟨hb, fun a b hab => hs a b (by omega)⟩
  · intro o1 ho1
    cases ho1
    exact ⟨rfl, fun a b hab => by omega⟩
  · intro y s hy1 hy2 hP
    by_cases hX : B.Max.X ≤ B.Min.X
    · rw [forRange_empty _ _ _ _ hX]
      intro o1 ho1
      obtain ⟨hb, hs⟩ := hP o1 ho1
      exact ⟨hb, fun a b hab => by omega⟩
    have hin := forRange_counter_induction
      (fun (x : Int) (s : Option Image) => ∀ o, s = some o → o.Bounds = B ∧
        ∀ a b, ((B.Min.Y ≤ b ∧ b < y ∧ B.Min.X ≤ a ∧ a < B.Max.X) ∨
          (b = y ∧ B.Min.X ≤ a ∧ a < x)) → Stored sortFn fuel di o a b)
      B.Min.X B.Max.X (fun x dst =>
        match dst with
        | none => none
        | some dst =>
          match (if isDirty di (di.img.At x y) then calculateColor sortFn fuel di x y
            else some (di.img.At x y)) with
          | none => none
          | some c => some (dst.Set x y c)) s (by omega) ?_ ?_
    · intro o1 ho1
      obtain ⟨hb, hs⟩ := hin o1 ho1
      refine ⟨hb, fun a b hab => hs a b ?_⟩
      by_cases hby : b = y
      · exact Or.inr ⟨hby, hab.2.2.1, hab.2.2.2⟩
      · exact Or.inl ⟨hab.1, by omega, hab.2.2.1, hab.2.2.2⟩
    · intro o1 ho1
      obtain ⟨hb, hs⟩ := hP o1 ho1
      refine ⟨hb, fun a b hab => hs a b ?_⟩
      rcases hab with hab | hab
      · exact hab
      · omega
    · intro x s1 hx1 hx2 hP1 o1 ho1
      cases s1 with
      | none => cases ho1
      | some dst =>
        obtain ⟨hb, hs⟩ := hP1 dst rfl
        change (match pixelValue sortFn fuel di x y with
          | none => none
          | some c => some (dst.Set x y c)) = some o1 at ho1
        cases hp : pixelValue sortFn fuel di x y with
        | none => rw [hp] at ho1; cases ho1
        | some c =>
          rw [hp] at ho1
          cases ho1
          refine ⟨by rw [Set_bounds]; exact hb, ?_⟩
          intro a b hab
          by_cases hsame : a = x ∧ b = y
          · obtain ⟨rfl, rfl⟩ := hsame
            refine ⟨c, hp, Set_at_same dst a b c ?_⟩
            unfold inBounds
            rw [hb]
            omega
          · obtain ⟨c1, hc1, hat⟩ := hs a b (by
              rcases hab with hab | hab
              · exact Or.inl hab
              · refine Or.inr ⟨hab.1, hab.2.1, ?_⟩
                by_contra hlt
                exact hsame ⟨by omega, hab.1⟩)
            exact ⟨c1, hc1, by rw [Set_at_other dst x y c a b hsame]; exact hat⟩

theorem cleanUp_spec (sortFn : List Color → List Color) (fuel : Nat) (di out : dirtyImg)
    (h : cleanUp sortFn fuel di = some out) :
    out.salt = (findSaltAndPepper di).salt ∧ out.pepper = (findSaltAndPepper di).pepper ∧
    out.img.Bounds = di.img.Bounds ∧
    ∀ a b, inBounds di.img a b → Stored sortFn fuel (findSaltAndPepper di) out.img a b := by
  unfold cleanUp at h
  dsimp only at h
  split at h
  · cases h
  · rename_i dst hdst
    cases h
    have hl := cleanUp_loops sortFn fuel (findSaltAndPepper di) _ dst hdst
    rw [findSaltAndPepper_img] at hl
    refine ⟨rfl, rfl, hl.1, fun a b hab => hl.2 a b hab⟩
/-! ## Candidates are clean pixels of the picture -/

theorem isDirty_eq_false_iff (di : dirtyImg) (c : Color) :
    isDirty di c = false ↔ calcBright c ≠ di.salt ∧ calcBright c ≠ di.pepper := by
  simp [isDirty]

theorem collectColor_clean (di : dirtyImg) (x y : Int) (cs : List Color)
    (h : ∀ c ∈ cs, ∃ a b, inBounds di.img a b ∧ isDirty di (di.img.At a b) = false ∧
      c = di.img.At a b) :
    ∀ c ∈ collectColor di x y cs, ∃ a b, inBounds di.img a b ∧
      isDirty di (di.img.At a b) = false ∧ c = di.img.At a b := by
  rw [collectColor_eq]
  split_ifs with hc
  · intro c hmem
    rcases List.mem_append.1 hmem with h1 | h1
    · exact h c h1
    · rw [List.mem_singleton] at h1
      exact ⟨x, y, hc.1, hc.2, h1⟩
  · exact h

theorem collectRing_clean (di : dirtyImg) (x y : Int) (cs : List Color) (ring : Int)
    (h : ∀ c ∈ cs, ∃ a b, inBounds di.img a b ∧ isDirty di (di.img.At a b) = false ∧
      c = di.img.At a b) :
    ∀ c ∈ collectRing di x y cs ring, ∃ a b, inBounds di.img a b ∧
      isDirty di (di.img.At a b) = false ∧ c = di.img.At a b := by
  rw [collectRing_eq_foldl]
  generalize ringCoords x y ring = l
  induction l generalizing cs with
  | nil => exact h
  | cons p t ih =>
    rw [List.foldl_cons]
    exact ih _ (collectColor_clean di p.1 p.2 cs h)

theorem ringLoop_clean (di : dirtyImg) (x y : Int) (fuel : Nat) (ring : Int)
    (cs C : List Color) (hC : ringLoop di x y fuel ring cs = some C)
    (h : ∀ c ∈ cs, ∃ a b, inBounds di.img a b ∧ isDirty di (di.img.At a b) = false ∧
      c = di.img.At a b) :
    ∀ c ∈ C, ∃ a b, inBounds di.img a b ∧ isDirty di (di.img.At a b) = false ∧
      c = di.img.At a b := by
  induction fuel generalizing ring cs with
  | zero =>
    simp only [ringLoop] at hC
    split_ifs at hC
    cases hC
    exact h
  | succ n ih =>
    simp only [ringLoop] at hC
    split_ifs at hC
    · exact ih _ _ hC (collectRing_clean di x y cs ring h)
    · cases hC
      exact h

theorem calculateColor_mem (sortFn : List Color → List Color) (hs : SortsByBright sortFn)
    (fuel : Nat) (di : dirtyImg) (x y : Int) (c : Color)
    (h : calculateColor sortFn fuel di x y = some c) :
    ∃ C, ringLoop di x y fuel 1 [] = some C ∧ c ∈ C := by
  unfold calculateColor at h
  cases hC : ringLoop di x y fuel 1 [] with
  | none => rw [hC] at h; cases h
  | some C =>
    rw [hC] at h
    dsimp only at h
    exact ⟨C, rfl, (hs.perm C).mem_iff.1 (List.getElem?_mem h)⟩

theorem calculateColor_clean (sortFn : List Color → List Color) (hs : SortsByBright sortFn)
    (fuel : Nat) (di : dirtyImg) (x y : Int) (c : Color)
    (h : calculateColor sortFn fuel di x y = some c) :
    ∃ a b, inBounds di.img a b ∧ isDirty di (di.img.At a b) = false ∧ c = di.img.At a b := by
  obtain ⟨C, hC, hmem⟩ := calculateColor_mem sortFn hs fuel di x y c h
  exact ringLoop_clean di x y fuel 1 [] C hC (fun c hc => by cases hc) c hmem

theorem pixelValue_clean (sortFn : List Color → List Color) (hs : SortsByBright sortFn)
    (fuel : Nat) (di : dirtyImg) (x y : Int) (c : Color) (hin : inBounds di.img x y)
    (h : pixelValue sortFn fuel di x y = some c) :
    ∃ a b, inBounds di.img a b ∧ isDirty di (di.img.At a b) = false ∧ c = di.img.At a b := by
  unfold pixelValue at h
  split_ifs at h with hd
  · exact calculateColor_clean sortFn hs fuel di x y c h
  · cases h
    exact ⟨x, y, hin, by simpa using hd, rfl⟩
/-! ## `cleanUp` -/

/-- C4, as stated, fails on the 16-bit picture `imgDeep`: `cleanUp` terminates, the pixel
`(1, 0)` is in bounds and clean, and the output sample there differs from the input sample. -/
theorem deep_picture_clean_pixel_altered :
    ∃ out, cleanUp insertionSortColors 1 ⟨imgDeep, 0, 0⟩ = some out ∧
      inBounds imgDeep 1 0 ∧
      isDirty (findSaltAndPepper ⟨imgDeep, 0, 0⟩) (imgDeep.At 1 0) = false ∧
      imgDeep.At 1 0 = ⟨255, 255, 255, 65535⟩ ∧
      out.img.At 1 0 = ⟨0, 0, 0, 65535⟩ ∧
      out.img.At 1 0 ≠ imgDeep.At 1 0 := by
  have hsome : (cleanUp insertionSortColors 1 ⟨imgDeep, 0, 0⟩).isSome = true := by decide
  obtain ⟨out, hout⟩ := Option.isSome_iff_exists.1 hsome
  have hval : (cleanUp insertionSortColors 1 ⟨imgDeep, 0, 0⟩).map (fun d => d.img.At 1 0) =
      some ⟨0, 0, 0, 65535⟩ := by decide
  rw [hout] at hval
  have hat : out.img.At 1 0 = ⟨0, 0, 0, 65535⟩ := Option.some.inj hval
  refine ⟨out, hout, by decide, by decide, by decide, hat, ?_⟩
  rw [hat]
  decide

/-- C4, amended: when `cleanUp` terminates, the output sample at an in-bounds coordinate whose
input sample is clean under the thresholds of `findSaltAndPepper` is the input sample converted
to the 8-bit RGBA model of the destination picture; it is the input sample itself when that
sample is 8-bit. Consequently a picture of 8-bit samples with no dirty pixel comes back with the
same bounds and unchanged at every in-bounds coordinate. -/
theorem cleanUp_clean_pixel (sortFn : List Color → List Color) (fuel : Nat) (di out : dirtyImg)
    (h : cleanUp sortFn fuel di = some out) (x y : Int) (hin : inBounds di.img x y)
    (hclean : isDirty (findSaltAndPepper di) (di.img.At x y) = false) :
    out.img.At x y = rgbaModel (di.img.At x y) ∧
    (eightBit (di.img.At x y) → out.img.At x y = di.img.At x y) ∧
    ((∀ a b, inBounds di.img a b →
        isDirty (findSaltAndPepper di) (di.img.At a b) = false ∧ eightBit (di.img.At a b)) →
      out.img.Bounds = di.img.Bounds ∧
      ∀ a b, inBounds di.img a b → out.img.At a b = di.img.At a b) := by
  obtain ⟨_, _, hb, hst⟩ := cleanUp_spec sortFn fuel di out h
  have key : ∀ a b, inBounds di.img a b →
      isDirty (findSaltAndPepper di) (di.img.At a b) = false →
      out.img.At a b = rgbaModel (di.img.At a b) := by
    intro a b hab hcl
    obtain ⟨c, hc, hat⟩ := hst a b hab
    unfold pixelValue at hc
    rw [findSaltAndPepper_img, hcl] at hc
    simp only [Bool.false_eq_true, if_false, Option.some.injEq] at hc
    rw [hat, ← hc]
  refine ⟨key x y hin hclean, fun h8 => (key x y hin hclean).trans h8, ?_⟩
  intro hall
  exact ⟨hb, fun a b hab => (key a b hab (hall a b hab).1).trans (hall a b hab).2⟩

theorem cleanUp_clean_pixel_witness :
    ∃ out, cleanUp insertionSortColors 0 ⟨imgOffset, 0, 0⟩ = some out ∧
      inBounds imgOffset 5 0 ∧
      isDirty (findSaltAndPepper ⟨imgOffset, 0, 0⟩) (imgOffset.At 5 0) = false ∧
      (out.img.At 5 0 = rgbaModel (imgOffset.At 5 0) ∧
        (eightBit (imgOffset.At 5 0) → out.img.At 5 0 = imgOffset.At 5 0) ∧
        ((∀ a b, inBounds imgOffset a b →
            isDirty (findSaltAndPepper ⟨imgOffset, 0, 0⟩) (imgOffset.At a b) = false ∧
              eightBit (imgOffset.At a b)) →
          out.img.Bounds = imgOffset.Bounds ∧
          ∀ a b, inBounds imgOffset a b → out.img.At a b = imgOffset.At a b)) ∧
      (∀ a b, inBounds imgOffset a b →
        isDirty (findSaltAndPepper ⟨imgOffset, 0, 0⟩) (imgOffset.At a b) = false ∧
          eightBit (imgOffset.At a b)) ∧
      out.img.At 5 0 = gray16 257 := by
  have hsome : (cleanUp insertionSortColors 0 ⟨imgOffset, 0, 0⟩).isSome = true := by decide
  obtain ⟨out, hout⟩ := Option.isSome_iff_exists.1 hsome
  have hall : ∀ a b, inBounds imgOffset a b →
      isDirty (findSaltAndPepper ⟨imgOffset, 0, 0⟩) (imgOffset.At a b) = false ∧
        eightBit (imgOffset.At a b) := by
    intro a b hab
    have ha : a = 5 := by
      have h1 := hab.1
      have h2 := hab.2.1
      simp only [imgOffset] at h1 h2
      omega
    have hb : b = 0 := by
      have h1 := hab.2.2.1
      have h2 := hab.2.2.2
      simp only [imgOffset] at h1 h2
      omega
    subst ha
    subst hb
    exact ⟨by decide, by decide⟩
  have ht := cleanUp_clean_pixel insertionSortColors 0 ⟨imgOffset, 0, 0⟩ out hout 5 0
    (by decide) (by decide)
  exact ⟨out, hout, by decide, by decide, ht, hall, (ht.2.2 hall).2 5 0 (by decide)⟩

/-- C5, as stated, fails on the 16-bit picture `imgDeep`: `cleanUp` terminates, the pixel
`(1, 1)` is in bounds and dirty, `calculateColor` returns for it the sample of `(1, 0)`, and the
output sample at `(1, 1)` is a different one. -/
theorem deep_picture_dirty_pixel_altered :
    ∃ out, cleanUp insertionSortColors 1 ⟨imgDeep, 0, 0⟩ = some out ∧
      inBounds imgDeep 1 1 ∧
      isDirty (findSaltAndPepper ⟨imgDeep, 0, 0⟩) (imgDeep.At 1 1) = true ∧
      calculateColor insertionSortColors 1 (findSaltAndPepper ⟨imgDeep, 0, 0⟩) 1 1 =
        some ⟨255, 255, 255, 65535⟩ ∧
      out.img.At 1 1 = ⟨0, 0, 0, 65535⟩ ∧
      some (out.img.At 1 1) ≠
        calculateColor insertionSortColors 1 (findSaltAndPepper ⟨imgDeep, 0, 0⟩) 1 1 := by
  have hsome : (cleanUp insertionSortColors 1 ⟨imgDeep, 0, 0⟩).isSome = true := by decide
  obtain ⟨out, hout⟩ := Option.isSome_iff_exists.1 hsome
  have hval : (cleanUp insertionSortColors 1 ⟨imgDeep, 0, 0⟩).map (fun d => d.img.At 1 1) =
      some ⟨0, 0, 0, 65535⟩ := by decide
  rw [hout] at hval
  have hat : out.img.At 1 1 = ⟨0, 0, 0, 65535⟩ := Option.some.inj hval
  refine ⟨out, hout, by decide, by decide, by decide, hat, ?_⟩
  rw [hat]
  decide

/-- C5, amended: when `cleanUp` terminates, the output has the bounds of the input, and the
output sample at an in-bounds dirty coordinate is the result of `calculateColor` at that
coordinate, evaluated on the original input picture with the thresholds computed once by
`findSaltAndPepper`, converted to the 8-bit RGBA model of the destination picture (so it is
that result itself when the result is 8-bit). The output pixel is thus a function of the input
picture alone, not of any other output pixel. -/
theorem cleanUp_dirty_pixel (sortFn : List Color → List Color) (fuel : Nat) (di out : dirtyImg)
    (h : cleanUp sortFn fuel di = some out) (x y : Int) (hin : inBounds di.img x y)
    (hdirty : isDirty (findSaltAndPepper di) (di.img.At x y) = true) :
    out.img.Bounds = di.img.Bounds ∧
    (findSaltAndPepper di).img = di.img ∧
    ∃ c, calculateColor sortFn fuel
        ⟨di.img, (findSaltAndPepper di).salt, (findSaltAndPepper di).pepper⟩ x y = some c ∧
      out.img.At x y = rgbaModel c ∧ (eightBit c → out.img.At x y = c) := by
  obtain ⟨_, _, hb, hst⟩ := cleanUp_spec sortFn fuel di out h
  refine ⟨hb, findSaltAndPepper_img di, ?_⟩
  obtain ⟨c, hc, hat⟩ := hst x y hin
  unfold pixelValue at hc
  rw [findSaltAndPepper_img, hdirty] at hc
  simp only [if_true] at hc
  have hdi : findSaltAndPepper di =
      ⟨di.img, (findSaltAndPepper di).salt, (findSaltAndPepper di).pepper⟩ := by
    rw [← findSaltAndPepper_img di]
  rw [hdi] at hc
  exact ⟨c, hc, hat, fun h8 => hat.trans h8⟩

theorem cleanUp_dirty_pixel_witness :
    ∃ out, cleanUp insertionSortColors 1 ⟨imgDeep, 0, 0⟩ = some out ∧
      inBounds imgDeep 0 0 ∧
      isDirty (findSaltAndPepper ⟨imgDeep, 0, 0⟩) (imgDeep.At 0 0) = true ∧
      (out.img.Bounds = imgDeep.Bounds ∧
        (findSaltAndPepper ⟨imgDeep, 0, 0⟩).img = imgDeep ∧
        ∃ c, calculateColor insertionSortColors 1
            ⟨imgDeep, (findSaltAndPepper ⟨imgDeep, 0, 0⟩).salt,
              (findSaltAndPepper ⟨imgDeep, 0, 0⟩).pepper⟩ 0 0 = some c ∧
          out.img.At 0 0 = rgbaModel c ∧ (eightBit c → out.img.At 0 0 = c)) := by
  have hsome : (cleanUp insertionSortColors 1 ⟨imgDeep, 0, 0⟩).isSome = true := by decide
  obtain ⟨out, hout⟩ := Option.isSome_iff_exists.1 hsome
  exact ⟨out, hout, by decide, by decide,
    cleanUp_dirty_pixel insertionSortColors 1 ⟨imgDeep, 0, 0⟩ out hout 0 0
      (by decide) (by decide)⟩

/-- C6, as stated, fails on the 16-bit picture `imgDeep`: `cleanUp` terminates, pepper is 0,
and the in-bounds output pixel `(1, 0)` has brightness 0. -/
theorem deep_picture_output_at_pepper :
    ∃ out, cleanUp insertionSortColors 1 ⟨imgDeep, 0, 0⟩ = some out ∧
      inBounds imgDeep 1 0 ∧
      (findSaltAndPepper ⟨imgDeep, 0, 0⟩).pepper = 0 ∧
      out.pepper = 0 ∧
      calcBright (out.img.At 1 0) = 0 := by
  have hsome : (cleanUp insertionSortColors 1 ⟨imgDeep, 0, 0⟩).isSome = true := by decide
  obtain ⟨out, hout⟩ := Option.isSome_iff_exists.1 hsome
  have hval : (cleanUp insertionSortColors 1 ⟨imgDeep, 0, 0⟩).map
      (fun d => (d.pepper, calcBright (d.img.At 1 0))) = some (0, 0) := by decide
  rw [hout] at hval
  have hp := Option.some.inj hval
  exact ⟨out, hout, by decide, by decide, congrArg Prod.fst hp, congrArg Prod.snd hp⟩

/-- C6, amended: when `cleanUp` terminates, every in-bounds pixel of the output is the 8-bit
RGBA conversion of an in-bounds sample of the input whose brightness is neither the salt nor
the pepper value computed from the input; when that sample is 8-bit, the brightness of the
output pixel itself is neither the salt nor the pepper value. -/
theorem cleanUp_output_from_clean_sample (sortFn : List Color → List Color)
    (hs : SortsByBright sortFn) (fuel : Nat) (di out : dirtyImg)
    (h : cleanUp sortFn fuel di = some out) (x y : Int) (hin : inBounds di.img x y) :
    ∃ a b, inBounds di.img a b ∧
      calcBright (di.img.At a b) ≠ (findSaltAndPepper di).salt ∧
      calcBright (di.img.At a b) ≠ (findSaltAndPepper di).pepper ∧
      out.img.At x y = rgbaModel (di.img.At a b) ∧
      (eightBit (di.img.At a b) →
        calcBright (out.img.At x y) ≠ (findSaltAndPepper di).salt ∧
        calcBright (out.img.At x y) ≠ (findSaltAndPepper di).pepper) := by
  obtain ⟨_, _, _, hst⟩ := cleanUp_spec sortFn fuel di out h
  obtain ⟨c, hc, hat⟩ := hst x y hin
  have hin2 : inBounds (findSaltAndPepper di).img x y := by
    rw [findSaltAndPepper_img]; exact hin
  obtain ⟨a, b, hab, hcl, hceq⟩ :=
    pixelValue_clean sortFn hs fuel (findSaltAndPepper di) x y c hin2 hc
  rw [findSaltAndPepper_img] at hab hcl hceq
  have hne := (isDirty_eq_false_iff _ _).1 hcl
  refine ⟨a, b, hab, hne.1, hne.2, by rw [hat, hceq], ?_⟩
  intro h8
  have : out.img.At x y = di.img.At a b := by
    rw [hat, hceq]; exact h8
  rw [this]
  exact hne

theorem cleanUp_output_from_clean_sample_witness :
    ∃ out, SortsByBright insertionSortColors ∧
      cleanUp insertionSortColors 1 ⟨imgDeep, 0, 0⟩ = some out ∧
      inBounds imgDeep 0 0 ∧
      (∃ a b, inBounds imgDeep a b ∧
        calcBright (imgDeep.At a b) ≠ (findSaltAndPepper ⟨imgDeep, 0, 0⟩).salt ∧
        calcBright (imgDeep.At a b) ≠ (findSaltAndPepper ⟨imgDeep, 0, 0⟩).pepper ∧
        out.img.At 0 0 = rgbaModel (imgDeep.At a b) ∧
        (eightBit (imgDeep.At a b) →
          calcBright (out.img.At 0 0) ≠ (findSaltAndPepper ⟨imgDeep, 0, 0⟩).salt ∧
          calcBright (out.img.At 0 0) ≠ (findSaltAndPepper ⟨imgDeep, 0, 0⟩).pepper)) := by
  have hsome : (cleanUp insertionSortColors 1 ⟨imgDeep, 0, 0⟩).isSome = true := by decide
  obtain ⟨out, hout⟩ := Option.isSome_iff_exists.1 hsome
  exact ⟨out, insertionSortColors_sorts, hout, by decide,
    cleanUp_output_from_clean_sample insertionSortColors insertionSortColors_sorts 1
      ⟨imgDeep, 0, 0⟩ out hout 0 0 (by decide)⟩

/-! ## Thresholds, rings and Scenario A -/

theorem nestedFor_induction {σ : Type} (Q : (Int → Int → Prop) → σ → Prop)
    (lo1 hi1 lo2 hi2 : Int) (body : Int → Int → σ → σ) (s : σ)
    (h0 : Q (fun _ _ => False) s)
    (hstep : ∀ (S : Int → Int → Prop) (o i : Int) (s : σ), lo1 ≤ o → o < hi1 → lo2 ≤ i →
      i < hi2 → ¬ S o i → Q S s → Q (fun a b => S a b ∨ (a = o ∧ b = i)) (body o i s)) :
    Q (fun a b => lo1 ≤ a ∧ a < hi1 ∧ lo2 ≤ b ∧ b < hi2)
      (forRange lo1 hi1 (fun o s => forRange lo2 hi2 (fun i s => body o i s) s) s) := by
  have hcongr : ∀ (S S1 : Int → Int → Prop) (s : σ), (∀ a b, S a b ↔ S1 a b) → Q S s → Q S1 s := by
    intro S S1 s hS hQ
    have : S = S1 := by
      funext a b
      exact propext (hS a b)
    rw [← this]; exact hQ
  by_cases h1 : hi1 ≤ lo1
  · rw [forRange_empty _ _ _ _ h1]
    exact hcongr _ _ s (fun a b => ⟨fun h => False.elim h, fun h => by omega⟩) h0
  refine forRange_counter_induction
    (fun (o : Int) (s : σ) => Q (fun a b => lo1 ≤ a ∧ a < o ∧ lo2 ≤ b ∧ b < hi2) s)
    lo1 hi1 _ s (by omega) ?_ ?_
  · exact hcongr _ _ s (fun a b => ⟨fun h => False.elim h, fun h => by omega⟩) h0
  · intro o s1 ho1 ho2 hP
    by_cases h2 : hi2 ≤ lo2
    · rw [forRange_empty _ _ _ _ h2]
      exact hcongr _ _ s1 (fun a b => by constructor <;> intro h <;> omega) hP
    have hin := forRange_counter_induction
      (fun (i : Int) (s : σ) => Q (fun a b => (lo1 ≤ a ∧ a < o ∧ lo2 ≤ b ∧ b < hi2) ∨
        (a = o ∧ lo2 ≤ b ∧ b < i)) s)
      lo2 hi2 (fun i s => body o i s) s1 (by omega) ?_ ?_
    · exact hcongr _ _ _ (fun a b => by constructor <;> intro h <;> omega) hin
    · exact hcongr _ _ s1 (fun a b => by constructor <;> intro h <;> omega) hP
    · intro i s2 hi1' hi2' hP2
      have := hstep _ o i s2 ho1 ho2 hi1' hi2' (by omega) hP2
      exact hcongr _ _ _ (fun a b => by constructor <;> intro h <;> omega) this

theorem calcBright_le_max (c : Color) : calcBright c ≤ MaxUint32 := by
  unfold calcBright MaxUint32
  have : (c.r + c.g + c.b) % 2 ^ 32 < 2 ^ 32 := Nat.mod_lt _ (by norm_num)
  omega

theorem scanStep_img (y x : Int) (s : dirtyImg) : (scanStep y x s).img = s.img := by
  unfold scanStep
  dsimp only
  split_ifs <;> rfl

theorem scanStep_salt (y x : Int) (s : dirtyImg) :
    (scanStep y x s).salt =
      if s.salt < calcBright (s.img.At x y) then calcBright (s.img.At x y) else s.salt := by
  unfold scanStep
  dsimp only
  split_ifs <;> rfl

theorem scanStep_pepper (y x : Int) (s : dirtyImg) :
    (scanStep y x s).pepper =
      if s.pepper > calcBright (s.img.At x y) then calcBright (s.img.At x y) else s.pepper := by
  unfold scanStep
  dsimp only
  split_ifs <;> rfl

theorem scanInv_step (img : Image) (S : Int → Int → Prop) (s : dirtyImg) (x y : Int)
    (h : ScanInv img S s) :
    ScanInv img (fun a b => S a b ∨ (a = x ∧ b = y)) (scanStep y x s) := by
  obtain ⟨himg, hbd, hatt⟩ := h
  have hv := calcBright_le_max (img.At x y)
  refine ⟨by rw [scanStep_img]; exact himg, ?_, Or.inr ⟨?_, ?_⟩⟩
  · intro a b hab
    rw [scanStep_salt, scanStep_pepper, himg]
    rcases hab with hab | ⟨rfl, rfl⟩
    · have := hbd a b hab
      split_ifs <;> omega
    · split_ifs <;> omega
  · rw [scanStep_salt, himg]
    split_ifs with h1
    · exact ⟨x, y, Or.inr ⟨rfl, rfl⟩, rfl⟩
    · rcases hatt with ⟨_, h0, _⟩ | ⟨⟨a, b, hab, hs⟩, _⟩
      · exact ⟨x, y, Or.inr ⟨rfl, rfl⟩, by omega⟩
      · exact ⟨a, b, Or.inl hab, hs⟩
  · rw [scanStep_pepper, himg]
    split_ifs with h1
    · exact ⟨x, y, Or.inr ⟨rfl, rfl⟩, rfl⟩
    · rcases hatt with ⟨_, _, h0⟩ | ⟨_, ⟨a, b, hab, hs⟩⟩
      · exact ⟨x, y, Or.inr ⟨rfl, rfl⟩, by omega⟩
      · exact ⟨a, b, Or.inl hab, hs⟩

theorem findSaltAndPepper_scan (di : dirtyImg) :
    ScanInv di.img
      (fun a b => di.img.Bounds.Min.Y ≤ a ∧ a < di.img.Bounds.Max.Y ∧
        di.img.Bounds.Min.X ≤ b ∧ b < di.img.Bounds.Max.X)
      (findSaltAndPepper di) := by
  have key := nestedFor_induction
    (fun (S : Int → Int → Prop) (s : dirtyImg) => ScanInv di.img (fun a b => S b a) s)
    di.img.Bounds.Min.X di.img.Bounds.Max.X di.img.Bounds.Min.Y di.img.Bounds.Max.Y
    scanStep ⟨di.img, 0, MaxUint32⟩
    ⟨rfl, fun a b hab => False.elim hab, Or.inl ⟨fun ⟨_, _, hab⟩ => hab, rfl, rfl⟩⟩
    (fun S o i s _ _ _ _ _ hQ => by
      have := scanInv_step di.img (fun a b => S b a) s i o hQ
      have heq : (fun a b => (fun a b => S a b ∨ (a = o ∧ b = i)) b a) =
          (fun a b => (fun a b => S b a) a b ∨ (a = i ∧ b = o)) := by
        funext a b
        apply propext
        constructor
        · rintro (h | ⟨h1, h2⟩)
          · exact Or.inl h
          · exact Or.inr ⟨h2, h1⟩
        · rintro (h | ⟨h1, h2⟩)
          · exact Or.inl h
          · exact Or.inr ⟨h2, h1⟩
      show ScanInv di.img (fun a b => (fun a b => S a b ∨ (a = o ∧ b = i)) b a) (scanStep o i s)
      rw [heq]
      exact this)
  have heq2 : (fun a b => (fun a b => di.img.Bounds.Min.X ≤ a ∧ a < di.img.Bounds.Max.X ∧
      di.img.Bounds.Min.Y ≤ b ∧ b < di.img.Bounds.Max.Y) b a) =
      (fun a b => di.img.Bounds.Min.Y ≤ a ∧ a < di.img.Bounds.Max.Y ∧
        di.img.Bounds.Min.X ≤ b ∧ b < di.img.Bounds.Max.X) := by
    funext a b
    apply propext
    constructor <;> intro h <;> omega
  rw [← heq2]
  exact key

/-- C11: for every non-empty picture the thresholds left by `findSaltAndPepper` satisfy
`salt ≥ pepper`. -/
theorem findSaltAndPepper_salt_ge_pepper (di : dirtyImg)
    (hx : di.img.Bounds.Min.X < di.img.Bounds.Max.X)
    (hy : di.img.Bounds.Min.Y < di.img.Bounds.Max.Y) :
    (findSaltAndPepper di).salt ≥ (findSaltAndPepper di).pepper := by
  obtain ⟨_, hbd, _⟩ := findSaltAndPepper_scan di
  have := hbd di.img.Bounds.Min.Y di.img.Bounds.Min.X ⟨le_refl _, hy, le_refl _, hx⟩
  exact le_trans this.2 this.1

theorem findSaltAndPepper_salt_ge_pepper_witness :
    (imgWide.Bounds.Min.X < imgWide.Bounds.Max.X ∧
      imgWide.Bounds.Min.Y < imgWide.Bounds.Max.Y) ∧
    (findSaltAndPepper ⟨imgWide, 0, 0⟩).salt ≥ (findSaltAndPepper ⟨imgWide, 0, 0⟩).pepper :=
  ⟨by decide, findSaltAndPepper_salt_ge_pepper ⟨imgWide, 0, 0⟩ (by decide) (by decide)⟩

theorem findSaltAndPepper_extremes (di : dirtyImg)
    (hx : di.img.Bounds.Min.X < di.img.Bounds.Max.X)
    (hy : di.img.Bounds.Min.Y < di.img.Bounds.Max.Y)
    (hmin : di.img.Bounds.Min.X = di.img.Bounds.Min.Y)
    (hmax : di.img.Bounds.Max.X = di.img.Bounds.Max.Y) :
    (∀ a b, inBounds di.img a b → calcBright (di.img.At a b) ≤ (findSaltAndPepper di).salt) ∧
    (∃ a b, inBounds di.img a b ∧ calcBright (di.img.At a b) = (findSaltAndPepper di).salt) ∧
    (∀ a b, inBounds di.img a b → (findSaltAndPepper di).pepper ≤ calcBright (di.img.At a b)) ∧
    (∃ a b, inBounds di.img a b ∧
      calcBright (di.img.At a b) = (findSaltAndPepper di).pepper) := by
  obtain ⟨_, hbd, hatt⟩ := findSaltAndPepper_scan di
  have hin : ∀ a b, inBounds di.img a b ↔
      (di.img.Bounds.Min.Y ≤ a ∧ a < di.img.Bounds.Max.Y ∧
        di.img.Bounds.Min.X ≤ b ∧ b < di.img.Bounds.Max.X) := by
    intro a b
    unfold inBounds
    constructor <;> intro h <;> omega
  rcases hatt with ⟨hno, _, _⟩ | ⟨⟨a1, b1, h1, hs⟩, ⟨a2, b2, h2, hp⟩⟩
  · exact absurd ⟨di.img.Bounds.Min.Y, di.img.Bounds.Min.X, le_refl _, hy, le_refl _, hx⟩ hno
  · exact ⟨fun a b hab => (hbd a b ((hin a b).1 hab)).1,
      ⟨a1, b1, (hin a1 b1).2 h1, hs.symm⟩,
      fun a b hab => (hbd a b ((hin a b).1 hab)).2,
      ⟨a2, b2, (hin a2 b2).2 h2, hp.symm⟩⟩

/-- C18: for a non-empty picture whose bounds satisfy `Min.X = Min.Y` and `Max.X = Max.Y`,
`findSaltAndPepper` leaves in salt the maximum and in pepper the minimum of `calcBright` over
the in-bounds pixels: salt is at least, and pepper at most, the brightness of every in-bounds
pixel, and each is the brightness of some in-bounds pixel. -/
theorem findSaltAndPepper_square_bounds (di : dirtyImg)
    (hx : di.img.Bounds.Min.X < di.img.Bounds.Max.X)
    (hy : di.img.Bounds.Min.Y < di.img.Bounds.Max.Y)
    (hmin : di.img.Bounds.Min.X = di.img.Bounds.Min.Y)
    (hmax : di.img.Bounds.Max.X = di.img.Bounds.Max.Y) :
    (∀ a b, inBounds di.img a b → calcBright (di.img.At a b) ≤ (findSaltAndPepper di).salt) ∧
    (∃ a b, inBounds di.img a b ∧ calcBright (di.img.At a b) = (findSaltAndPepper di).salt) ∧
    (∀ a b, inBounds di.img a b → (findSaltAndPepper di).pepper ≤ calcBright (di.img.At a b)) ∧
    (∃ a b, inBounds di.img a b ∧
      calcBright (di.img.At a b) = (findSaltAndPepper di).pepper) := by
  obtain ⟨_, hbd, hatt⟩ := findSaltAndPepper_scan di
  have hin : ∀ a b, inBounds di.img a b ↔
      (di.img.Bounds.Min.Y ≤ a ∧ a < di.img.Bounds.Max.Y ∧
        di.img.Bounds.Min.X ≤ b ∧ b < di.img.Bounds.Max.X) := by
    intro a b
    unfold inBounds
    constructor <;> intro h <;> omega
  rcases hatt with ⟨hno, _, _⟩ | ⟨⟨a1, b1, h1, hs⟩, ⟨a2, b2, h2, hp⟩⟩
  · exact absurd ⟨di.img.Bounds.Min.Y, di.img.Bounds.Min.X, le_refl _, hy, le_refl _, hx⟩ hno
  · exact ⟨fun a b hab => (hbd a b ((hin a b).1 hab)).1,
      ⟨a1, b1, (hin a1 b1).2 h1, hs.symm⟩,
      fun a b hab => (hbd a b ((hin a b).1 hab)).2,
      ⟨a2, b2, (hin a2 b2).2 h2, hp.symm⟩⟩

theorem findSaltAndPepper_square_bounds_witness :
    (imgMedian.Bounds.Min.X < imgMedian.Bounds.Max.X ∧
      imgMedian.Bounds.Min.Y < imgMedian.Bounds.Max.Y ∧
      imgMedian.Bounds.Min.X = imgMedian.Bounds.Min.Y ∧
      imgMedian.Bounds.Max.X = imgMedian.Bounds.Max.Y) ∧
    ((∀ a b, inBounds imgMedian a b →
        calcBright (imgMedian.At a b) ≤ (findSaltAndPepper ⟨imgMedian, 0, 0⟩).salt) ∧
      (∃ a b, inBounds imgMedian a b ∧
        calcBright (imgMedian.At a b) = (findSaltAndPepper ⟨imgMedian, 0, 0⟩).salt) ∧
      (∀ a b, inBounds imgMedian a b →
        (findSaltAndPepper ⟨imgMedian, 0, 0⟩).pepper ≤ calcBright (imgMedian.At a b)) ∧
      (∃ a b, inBounds imgMedian a b ∧
        calcBright (imgMedian.At a b) = (findSaltAndPepper ⟨imgMedian, 0, 0⟩).pepper)) ∧
    (findSaltAndPepper ⟨imgMedian, 0, 0⟩).salt = 200 ∧
    (findSaltAndPepper ⟨imgMedian, 0, 0⟩).pepper = 0 :=
  ⟨by decide,
    findSaltAndPepper_square_bounds ⟨imgMedian, 0, 0⟩ (by decide) (by decide) (by decide)
      (by decide),
    by decide, by decide⟩

/-- C13, evaluated on a picture that is not square: both pixels of the 2x1 picture
`imgWideUniform` have brightness 15, and `findSaltAndPepper` leaves salt = 15 but pepper = 0,
the brightness of the out-of-bounds coordinate `(0, 1)` that its scan reads in place of the
pixel `(1, 0)`. -/
theorem findSaltAndPepper_uniform_wide_picture :
    imgWideUniform.Bounds = ⟨⟨0, 0⟩, ⟨2, 1⟩⟩ ∧
    calcBright (imgWideUniform.At 0 0) = 15 ∧ calcBright (imgWideUniform.At 1 0) = 15 ∧
    (findSaltAndPepper ⟨imgWideUniform, 0, 0⟩).salt = 15 ∧
    (findSaltAndPepper ⟨imgWideUniform, 0, 0⟩).pepper = 0 ∧
    (findSaltAndPepper ⟨imgWideUniform, 0, 0⟩).pepper ≠ 15 := by
  refine ⟨rfl, ?_, ?_, ?_, ?_, ?_⟩ <;> decide

/-- C12: when every in-bounds pixel is dirty, then for every centre `(x, y)` the candidate
collection is empty after the rings of radius `1, ..., r`, for every `r`; the loop of
`calculateColor` is still running after any number of rings, and `calculateColor` returns
nothing, whatever the fuel. -/
theorem all_dirty_never_terminates (di : dirtyImg)
    (hall : ∀ a b, inBounds di.img a b → isDirty di (di.img.At a b) = true) (x y : Int) :
    (∀ r : Nat, collectRings di x y r = []) ∧
    (∀ fuel : Nat, ringLoop di x y fuel 1 [] = none) ∧
    (∀ (sortFn : List Color → List Color) (fuel : Nat),
      calculateColor sortFn fuel di x y = none) := by
  have hring : ∀ ring : Int, 1 ≤ ring → collectRing di x y [] ring = [] := by
    intro ring _
    apply collectRing_unchanged
    intro i j _ hc
    have := hall i j hc.1
    rw [hc.2] at this
    cases this
  refine ⟨collectRings_nil_of_rings_empty di x y hring,
    fun fuel => ringLoop_none_of_rings_empty di x y fuel 1 hring, ?_⟩
  intro sortFn fuel
  unfold calculateColor
  rw [ringLoop_none_of_rings_empty di x y fuel 1 hring]

theorem all_dirty_never_terminates_witness :
    (∀ a b, inBounds (findSaltAndPepper ⟨imgOne, 0, 0⟩).img a b →
      isDirty (findSaltAndPepper ⟨imgOne, 0, 0⟩)
        ((findSaltAndPepper ⟨imgOne, 0, 0⟩).img.At a b) = true) ∧
    ((∀ r : Nat, collectRings (findSaltAndPepper ⟨imgOne, 0, 0⟩) 0 0 r = []) ∧
      (∀ fuel : Nat, ringLoop (findSaltAndPepper ⟨imgOne, 0, 0⟩) 0 0 fuel 1 [] = none) ∧
      (∀ (sortFn : List Color → List Color) (fuel : Nat),
        calculateColor sortFn fuel (findSaltAndPepper ⟨imgOne, 0, 0⟩) 0 0 = none)) := by
  have hall : ∀ a b, inBounds (findSaltAndPepper ⟨imgOne, 0, 0⟩).img a b →
      isDirty (findSaltAndPepper ⟨imgOne, 0, 0⟩)
        ((findSaltAndPepper ⟨imgOne, 0, 0⟩).img.At a b) = true := by
    intro a b hab
    rw [findSaltAndPepper_img] at hab ⊢
    have ha : a = 0 := by
      have h1 := hab.1
      have h2 := hab.2.1
      simp only [imgOne, gridImage] at h1 h2
      omega
    have hb : b = 0 := by
      have h1 := hab.2.2.1
      have h2 := hab.2.2.2
      simp only [imgOne, gridImage] at h1 h2
      omega
    subst ha
    subst hb
    decide
  exact ⟨hall, all_dirty_never_terminates (findSaltAndPepper ⟨imgOne, 0, 0⟩) hall 0 0⟩

/-- C16: `collectColor` appends the sample at `(x, y)` to the collection if and only if
`(x, y)` is in bounds and its sample is not dirty under the salt/pepper pair of `di`; otherwise
it returns the collection as it was. In both cases the collection it was given is a prefix of
the result, so the earlier samples are kept, in order. -/
theorem collectColor_appends_iff_clean (di : dirtyImg) (x y : Int) (colors : List Color) :
    (collectColor di x y colors =
      if inBounds di.img x y ∧ isDirty di (di.img.At x y) = false then
        colors ++ [di.img.At x y] else colors) ∧
    (collectColor di x y colors = colors ++ [di.img.At x y] ↔
      (inBounds di.img x y ∧ isDirty di (di.img.At x y) = false)) ∧
    (collectColor di x y colors = colors ↔
      ¬ (inBounds di.img x y ∧ isDirty di (di.img.At x y) = false)) ∧
    List.IsPrefix colors (collectColor di x y colors) := by
  refine ⟨collectColor_eq di x y colors, ?_, ?_, ?_⟩
  · rw [collectColor_eq]
    split_ifs with h
    · exact ⟨fun _ => h, fun _ => rfl⟩
    · refine ⟨fun h1 => ?_, fun h1 => absurd h1 h⟩
      have := congrArg List.length h1
      simp at this
  · rw [collectColor_eq]
    split_ifs with h
    · refine ⟨fun h1 => ?_, fun h1 => absurd h h1⟩
      have := congrArg List.length h1
      simp at this
    · exact ⟨fun _ => h, fun _ => rfl⟩
  · rw [collectColor_eq]
    split_ifs with h
    · exact List.prefix_append _ _
    · exact List.prefix_refl _

theorem cleanAt_iff (di : dirtyImg) (p : Int × Int) :
    cleanAt di p = true ↔ (inBounds di.img p.1 p.2 ∧ isDirty di (di.img.At p.1 p.2) = false) := by
  unfold cleanAt
  cases hd : isDirty di (di.img.At p.1 p.2) <;> simp

theorem foldl_collectColor_eq_append (di : dirtyImg) (l : List (Int × Int)) (cs : List Color) :
    l.foldl (fun cs p => collectColor di p.1 p.2 cs) cs =
      cs ++ (l.filter (cleanAt di)).map (fun p => di.img.At p.1 p.2) := by
  induction l generalizing cs with
  | nil => simp
  | cons a t ih =>
    rw [List.foldl_cons, ih, collectColor_eq]
    by_cases h : inBounds di.img a.1 a.2 ∧ isDirty di (di.img.At a.1 a.2) = false
    · rw [if_pos h, List.filter_cons_of_pos ((cleanAt_iff di a).2 h)]
      simp
    · rw [if_neg h, List.filter_cons_of_neg (fun hc => h ((cleanAt_iff di a).1 hc))]

theorem collectRing_eq_append (di : dirtyImg) (x y : Int) (cs : List Color) (ring : Int) :
    collectRing di x y cs ring = cs ++ ringSamples di x y ring := by
  rw [collectRing_eq_foldl, foldl_collectColor_eq_append]
  rfl

theorem ringSamples_ne_nil_iff (di : dirtyImg) (x y ring : Int) :
    ringSamples di x y ring ≠ [] ↔
      ∃ i j, (i, j) ∈ ringCoords x y ring ∧ inBounds di.img i j ∧
        isDirty di (di.img.At i j) = false := by
  unfold ringSamples
  rw [Ne, List.map_eq_nil_iff, List.filter_eq_nil_iff]
  constructor
  · intro h
    by_contra hno
    apply h
    intro p hp hc
    exact hno ⟨p.1, p.2, hp, (cleanAt_iff di p).1 hc⟩
  · rintro ⟨i, j, hm, hc⟩ h
    exact h (i, j) hm ((cleanAt_iff di (i, j)).2 hc)

theorem ringLoop_of_ne_nil (di : dirtyImg) (x y : Int) (fuel : Nat) (ring : Int)
    (cs : List Color) (h : cs ≠ []) : ringLoop di x y fuel ring cs = some cs := by
  have hlen : ¬ cs.length = 0 := fun h0 => h (List.length_eq_zero.1 h0)
  cases fuel with
  | zero => simp only [ringLoop, if_neg hlen]
  | succ n => simp only [ringLoop, if_neg hlen]

theorem ringLoop_nil_succ (di : dirtyImg) (x y : Int) (fuel : Nat) (ring : Int) :
    ringLoop di x y (fuel + 1) ring [] = ringLoop di x y fuel (ring + 1) (ringSamples di x y ring) := by
  simp only [ringLoop, List.length_nil, if_true]
  rw [collectRing_eq_append, List.nil_append]

theorem ringLoop_from (di : dirtyImg) (x y : Int) (fuel : Nat) (start : Int) (C : List Color) :
    ringLoop di x y fuel start [] = some C ↔
      ∃ j : Nat, j < fuel ∧ (∀ i : Nat, i < j → ringSamples di x y (start + i) = []) ∧
        ringSamples di x y (start + j) ≠ [] ∧ C = ringSamples di x y (start + j) := by
  induction fuel generalizing start with
  | zero =>
    simp only [ringLoop, List.length_nil, if_true]
    constructor
    · intro h; cases h
    · rintro ⟨j, hj, _⟩; omega
  | succ n ih =>
    rw [ringLoop_nil_succ]
    by_cases hs : ringSamples di x y start = []
    · rw [hs, ih]
      constructor
      · rintro ⟨j, hj, hbefore, hne, hC⟩
        refine ⟨j + 1, by omega, ?_, ?_, ?_⟩
        · intro i hi
          cases i with
          | zero => simpa using hs
          | succ k =>
            have := hbefore k (by omega)
            rw [show start + ((k + 1 : Nat) : Int) = start + 1 + (k : Int) by push_cast; ring]
            exact this
        · rw [show start + ((j + 1 : Nat) : Int) = start + 1 + (j : Int) by push_cast; ring]
          exact hne
        · rw [show start + ((j + 1 : Nat) : Int) = start + 1 + (j : Int) by push_cast; ring]
          exact hC
      · rintro ⟨j, hj, hbefore, hne, hC⟩
        cases j with
        | zero => exact absurd (by simpa using hs) hne
        | succ k =>
          refine ⟨k, by omega, ?_, ?_, ?_⟩
          · intro i hi
            have := hbefore (i + 1) (by omega)
            rw [show start + ((i + 1 : Nat) : Int) = start + 1 + (i : Int) by push_cast; ring] at this
            exact this
          · rw [show start + ((k + 1 : Nat) : Int) = start + 1 + (k : Int) by push_cast; ring] at hne
            exact hne
          · rw [show start + ((k + 1 : Nat) : Int) = start + 1 + (k : Int) by push_cast; ring] at hC
            exact hC
    · rw [ringLoop_of_ne_nil di x y n (start + 1) _ hs]
      constructor
      · intro h
        cases h
        exact ⟨0, by omega, fun i hi => by omega, by simpa using hs, by simp⟩
      · rintro ⟨j, hj, hbefore, hne, hC⟩
        cases j with
        | zero => rw [hC]; simp
        | succ k =>
          have := hbefore 0 (by omega)
          simp only [Nat.cast_zero, add_zero] at this
          exact absurd this hs

/-- C15: the loop of `calculateColor` stops with the collection `C` exactly when there is a radius
`r` with `1 ≤ r ≤ fuel` such that no ring of radius `1, ..., r-1` holds an in-bounds clean pixel
among its visited coordinates, the ring of radius `r` holds one, and `C` is the list of the
samples of the in-bounds clean pixels visited at radius `r`; that `C` is also the whole
collection gathered over the radii `1, ..., r`, and it is what `calculateColor` sorts. -/
theorem ringLoop_stops_at_first_clean_ring (di : dirtyImg) (x y : Int) (fuel : Nat)
    (C : List Color) :
    (ringLoop di x y fuel 1 [] = some C ↔
      ∃ r : Nat, 1 ≤ r ∧ r ≤ fuel ∧
        (∀ k : Nat, 1 ≤ k → k < r → ringSamples di x y k = []) ∧
        ringSamples di x y r ≠ [] ∧ C = ringSamples di x y r ∧ C = collectRings di x y r) ∧
    (∀ r : Int, ringSamples di x y r ≠ [] ↔
      ∃ i j, (i, j) ∈ ringCoords x y r ∧ inBounds di.img i j ∧
        isDirty di (di.img.At i j) = false) ∧
    (∀ sortFn : List Color → List Color, calculateColor sortFn fuel di x y =
      (ringLoop di x y fuel 1 []).bind (fun C => (sortFn C)[(sortFn C).length / 2]?)) := by
  refine ⟨?_, fun r => ringSamples_ne_nil_iff di x y r, ?_⟩
  · rw [ringLoop_from]
    have hrings : ∀ r : Nat, (∀ k : Nat, 1 ≤ k → k < r + 1 → ringSamples di x y k = []) →
        collectRings di x y (r + 1) = ringSamples di x y ((r : Int) + 1) := by
      intro r hr
      have hprev : ∀ m : Nat, m ≤ r → collectRings di x y m = [] := by
        intro m
        induction m with
        | zero => intro _; rfl
        | succ k ihk =>
          intro hk
          simp only [collectRings]
          rw [ihk (by omega), collectRing_eq_append, List.nil_append]
          have := hr (k + 1) (by omega) (by omega)
          rw [show (((k + 1 : Nat) : Int)) = (k : Int) + 1 by push_cast; ring] at this
          exact this
      simp only [collectRings]
      rw [hprev r (le_refl _), collectRing_eq_append, List.nil_append]
    constructor
    · rintro ⟨j, hj, hbefore, hne, hC⟩
      have h1 : (1 : Int) + (j : Int) = ((j + 1 : Nat) : Int) := by push_cast; ring
      rw [h1] at hne hC
      have hb : ∀ k : Nat, 1 ≤ k → k < j + 1 → ringSamples di x y k = [] := by
        intro k hk1 hk2
        have := hbefore (k - 1) (by omega)
        rw [show (1 : Int) + ((k - 1 : Nat) : Int) = (k : Int) by omega] at this
        exact this
      refine ⟨j + 1, by omega, by omega, hb, hne, hC, ?_⟩
      rw [hC, hrings j hb]
      congr 1
    · rintro ⟨r, hr1, hr2, hbefore, hne, hC, _⟩
      obtain ⟨j, rfl⟩ : ∃ j, r = j + 1 := ⟨r - 1, by omega⟩
      have h1 : (1 : Int) + (j : Int) = ((j + 1 : Nat) : Int) := by push_cast; ring
      refine ⟨j, by omega, ?_, by rw [h1]; exact hne, by rw [h1]; exact hC⟩
      intro i hi
      have := hbefore (i + 1) (by omega) (by omega)
      rw [show (1 : Int) + (i : Int) = ((i + 1 : Nat) : Int) by push_cast; ring]
      exact this
  · intro sortFn
    unfold calculateColor
    cases ringLoop di x y fuel 1 [] <;> rfl

theorem intRange_nodup (lo hi : Int) : (intRange lo hi).Nodup := by
  unfold intRange
  apply List.Nodup.map
  · intro a b hab
    simp only at hab
    omega
  · exact List.nodup_range _

theorem intRange_length (lo hi : Int) : (intRange lo hi).length = (hi - lo).toNat := by
  simp [intRange]

theorem ringCoords_nodup (x y ring : Int) : (ringCoords x y ring).Nodup := by
  unfold ringCoords
  have hrow : ∀ c : Int, ((intRange (x - ring) (x + ring)).map (fun i => (i, c))).Nodup :=
    fun c => List.Nodup.map (fun a b hab => (Prod.mk.inj hab).1) (intRange_nodup _ _)
  have hcol : ∀ c : Int,
      ((intRange (y - ring + 1) (y + ring - 1)).map (fun i => (c, i))).Nodup :=
    fun c => List.Nodup.map (fun a b hab => (Prod.mk.inj hab).2) (intRange_nodup _ _)
  refine List.Nodup.append (List.Nodup.append (List.Nodup.append (hrow _) (hrow _) ?_)
    (hcol _) ?_) (hcol _) ?_
  · rw [List.disjoint_left]
    rintro ⟨i, j⟩ h1 h2
    simp only [List.mem_map, mem_intRange, Prod.mk.injEq] at h1 h2
    obtain ⟨a, ha, rfl, rfl⟩ := h1
    obtain ⟨b, hb, rfl, hj⟩ := h2
    omega
  · rw [List.disjoint_left]
    rintro ⟨i, j⟩ h1 h2
    simp only [List.mem_append, List.mem_map, mem_intRange, Prod.mk.injEq] at h1 h2
    obtain ⟨b, hb, rfl, rfl⟩ := h2
    rcases h1 with ⟨a, ha, _, hj⟩ | ⟨a, ha, _, hj⟩ <;> omega
  · rw [List.disjoint_left]
    rintro ⟨i, j⟩ h1 h2
    simp only [List.mem_append, List.mem_map, mem_intRange, Prod.mk.injEq] at h1 h2
    obtain ⟨b, hb, rfl, rfl⟩ := h2
    rcases h1 with (⟨a, ha, hi, hj⟩ | ⟨a, ha, hi, hj⟩) | ⟨a, ha, hi, hj⟩ <;> omega

theorem chebyshev_of_mem_ringCoords (x y ring i j : Int) (h : (i, j) ∈ ringCoords x y ring) :
    ((chebyshev x y i j : Nat) : Int) = ring := by
  rw [mem_ringCoords] at h
  unfold chebyshev
  omega

theorem ringCoords_disjoint (x y r1 r2 : Int) (hne : r1 ≠ r2) (p : Int × Int)
    (h1 : p ∈ ringCoords x y r1) : p ∉ ringCoords x y r2 := by
  intro h2
  obtain ⟨i, j⟩ := p
  have e1 := chebyshev_of_mem_ringCoords x y r1 i j h1
  have e2 := chebyshev_of_mem_ringCoords x y r2 i j h2
  omega

theorem mem_visitedCoords (x y : Int) (n : Nat) (p : Int × Int) :
    p ∈ visitedCoords x y n ↔ ∃ k : Nat, 1 ≤ k ∧ k ≤ n ∧ p ∈ ringCoords x y k := by
  induction n with
  | zero =>
    simp only [visitedCoords, List.not_mem_nil, false_iff]
    rintro ⟨k, h1, h2, _⟩
    omega
  | succ m ih =>
    simp only [visitedCoords, List.mem_append, ih]
    constructor
    · rintro (⟨k, h1, h2, h3⟩ | h)
      · exact ⟨k, h1, by omega, h3⟩
      · exact ⟨m + 1, by omega, le_refl _, by push_cast; exact h⟩
    · rintro ⟨k, h1, h2, h3⟩
      by_cases hk : k = m + 1
      · subst hk
        exact Or.inr (by push_cast at h3; exact h3)
      · exact Or.inl ⟨k, h1, by omega, h3⟩

theorem visitedCoords_nodup (x y : Int) (n : Nat) : (visitedCoords x y n).Nodup := by
  induction n with
  | zero => exact List.nodup_nil
  | succ m ih =>
    simp only [visitedCoords]
    refine List.Nodup.append ih (ringCoords_nodup _ _ _) ?_
    rw [List.disjoint_left]
    intro p hp
    obtain ⟨k, h1, h2, h3⟩ := (mem_visitedCoords x y m p).1 hp
    exact ringCoords_disjoint x y k ((m : Int) + 1) (by omega) p h3

theorem collectRings_eq_visited (di : dirtyImg) (x y : Int) (n : Nat) :
    collectRings di x y n =
      ((visitedCoords x y n).filter (cleanAt di)).map (fun p => di.img.At p.1 p.2) := by
  induction n with
  | zero => rfl
  | succ m ih =>
    simp only [collectRings, visitedCoords]
    rw [collectRing_eq_append, ih, List.filter_append, List.map_append]
    rfl

/-- C17: for every centre and every radius `collectRing` visits no coordinate twice; two
different radii visit disjoint sets of coordinates, a coordinate visited at radius `r` being at
Chebyshev distance `r` from the centre; hence the coordinates visited over the radii
`1, ..., n` are pairwise different, and the candidate collection gathered over these radii is
the list of the samples of the clean in-bounds ones among them, one entry for each. -/
theorem collectRing_visits_each_coordinate_once (x y : Int) :
    (∀ r : Int, (ringCoords x y r).Nodup) ∧
    (∀ (r i j : Int), (i, j) ∈ ringCoords x y r → ((chebyshev x y i j : Nat) : Int) = r) ∧
    (∀ (r1 r2 : Int), r1 ≠ r2 → ∀ p, p ∈ ringCoords x y r1 → p ∉ ringCoords x y r2) ∧
    (∀ n : Nat, (visitedCoords x y n).Nodup) ∧
    (∀ (n : Nat) (p : Int × Int),
      p ∈ visitedCoords x y n ↔ ∃ k : Nat, 1 ≤ k ∧ k ≤ n ∧ p ∈ ringCoords x y k) ∧
    (∀ (di : dirtyImg) (n : Nat), collectRings di x y n =
      ((visitedCoords x y n).filter (cleanAt di)).map (fun p => di.img.At p.1 p.2)) :=
  ⟨ringCoords_nodup x y, chebyshev_of_mem_ringCoords x y, ringCoords_disjoint x y,
    visitedCoords_nodup x y, mem_visitedCoords x y, fun di n => collectRings_eq_visited di x y n⟩

theorem ringCoords_length (x y ring : Int) (h : 1 ≤ ring) :
    ((ringCoords x y ring).length : Int) = 8 * ring - 4 := by
  simp only [ringCoords, List.length_append, List.length_map, intRange_length]
  omega

theorem collectColor_congr (di1 di2 : dirtyImg) (x y : Int) (cs : List Color)
    (hb : di1.img.Bounds = di2.img.Bounds) (hs : di1.salt = di2.salt)
    (hp : di1.pepper = di2.pepper) (hat : di1.img.At x y = di2.img.At x y) :
    collectColor di1 x y cs = collectColor di2 x y cs := by
  rw [collectColor_eq, collectColor_eq]
  have h1 : inBounds di1.img x y ↔ inBounds di2.img x y := by
    unfold inBounds; rw [hb]
  have h2 : isDirty di1 (di1.img.At x y) = isDirty di2 (di2.img.At x y) := by
    unfold isDirty; rw [hs, hp, hat]
  rw [h2, hat]
  by_cases h : inBounds di2.img x y
  · simp [h, h1.2 h]
  · have h3 : ¬ inBounds di1.img x y := fun h4 => h (h1.1 h4)
    simp [h, h3]

theorem collectRing_congr (di1 di2 : dirtyImg) (x y : Int) (cs : List Color) (ring : Int)
    (hb : di1.img.Bounds = di2.img.Bounds) (hs : di1.salt = di2.salt)
    (hp : di1.pepper = di2.pepper)
    (hat : ∀ i j, (i, j) ∈ ringCoords x y ring → di1.img.At i j = di2.img.At i j) :
    collectRing di1 x y cs ring = collectRing di2 x y cs ring := by
  rw [collectRing_eq_foldl, collectRing_eq_foldl]
  apply List.foldl_ext
  intro a p hp1
  exact collectColor_congr di1 di2 p.1 p.2 a hb hs hp (hat p.1 p.2 hp1)

theorem ringLoop_congr (di1 di2 : dirtyImg) (x y : Int) (fuel : Nat) (ring : Int)
    (cs : List Color) (hb : di1.img.Bounds = di2.img.Bounds) (hs : di1.salt = di2.salt)
    (hp : di1.pepper = di2.pepper)
    (hat : ∀ r i j, (i, j) ∈ ringCoords x y r → di1.img.At i j = di2.img.At i j) :
    ringLoop di1 x y fuel ring cs = ringLoop di2 x y fuel ring cs := by
  induction fuel generalizing ring cs with
  | zero => rfl
  | succ n ih =>
    simp only [ringLoop]
    rw [collectRing_congr di1 di2 x y cs ring hb hs hp (hat ring), ih]

theorem neighbours_not_mem_ringCoords (x y k : Int) :
    (x - 1, y) ∉ ringCoords x y k ∧ (x + 1, y) ∉ ringCoords x y k := by
  constructor <;> intro h <;> rw [mem_ringCoords] at h <;> omega

/-- C19: for every centre `(x, y)` and every `r ≥ 1`, the coordinates at the offsets `(r, -r)`,
`(r, r)`, `(-r, r-1)` and `(r, r-1)` are visited by `collectRing` at no radius, and `collectRing`
visits `8r - 4` coordinates at radius `r`. In particular the horizontal neighbours `(x-1, y)`
and `(x+1, y)` are visited at no radius, and the collection gathered by the loop of
`calculateColor` around `(x, y)` is the same whatever samples the picture holds at these two
coordinates. -/
theorem collectRing_never_visits_offsets (x y r : Int) (hr : 1 ≤ r) :
    (∀ k : Int, (x + r, y - r) ∉ ringCoords x y k ∧ (x + r, y + r) ∉ ringCoords x y k ∧
      (x - r, y + r - 1) ∉ ringCoords x y k ∧ (x + r, y + r - 1) ∉ ringCoords x y k) ∧
    (((ringCoords x y r).length : Int) = 8 * r - 4 ∧ (ringCoords x y r).Nodup) ∧
    (∀ k : Int, (x - 1, y) ∉ ringCoords x y k ∧ (x + 1, y) ∉ ringCoords x y k) ∧
    (∀ (di : dirtyImg) (c1 c2 : Color) (fuel : Nat),
      ringLoop ⟨replaceAt di.img (x - 1) y (x + 1) y c1 c2, di.salt, di.pepper⟩ x y fuel 1 [] =
        ringLoop di x y fuel 1 []) ∧
    (∀ (sortFn : List Color → List Color) (di : dirtyImg) (c1 c2 : Color) (fuel : Nat),
      calculateColor sortFn fuel
          ⟨replaceAt di.img (x - 1) y (x + 1) y c1 c2, di.salt, di.pepper⟩ x y =
        calculateColor sortFn fuel di x y) := by
  have hloop : ∀ (di : dirtyImg) (c1 c2 : Color) (fuel : Nat),
      ringLoop ⟨replaceAt di.img (x - 1) y (x + 1) y c1 c2, di.salt, di.pepper⟩ x y fuel 1 [] =
        ringLoop di x y fuel 1 [] := by
    intro di c1 c2 fuel
    refine ringLoop_congr
      ⟨replaceAt di.img (x - 1) y (x + 1) y c1 c2, di.salt, di.pepper⟩ di x y fuel 1 []
      rfl rfl rfl ?_
    intro k i j hm
    have hn := neighbours_not_mem_ringCoords x y k
    have h1 : ¬ (i = x - 1 ∧ j = y) := by
      rintro ⟨rfl, rfl⟩; exact hn.1 hm
    have h2 : ¬ (i = x + 1 ∧ j = y) := by
      rintro ⟨rfl, rfl⟩; exact hn.2 hm
    simp only [replaceAt, if_neg h1, if_neg h2]
  refine ⟨?_, ⟨ringCoords_length x y r hr, ringCoords_nodup x y r⟩,
    neighbours_not_mem_ringCoords x y, hloop, ?_⟩
  · intro k
    refine ⟨?_, ?_, ?_, ?_⟩ <;> intro h <;> rw [mem_ringCoords] at h <;> omega
  · intro sortFn di c1 c2 fuel
    unfold calculateColor
    rw [hloop]

theorem collectRing_never_visits_offsets_witness :
    (1 : Int) ≤ 1 ∧
    ((∀ k : Int, ((0 : Int) + 1, (0 : Int) - 1) ∉ ringCoords 0 0 k ∧
        ((0 : Int) + 1, (0 : Int) + 1) ∉ ringCoords 0 0 k ∧
        ((0 : Int) - 1, (0 : Int) + 1 - 1) ∉ ringCoords 0 0 k ∧
        ((0 : Int) + 1, (0 : Int) + 1 - 1) ∉ ringCoords 0 0 k) ∧
      (((ringCoords 0 0 1).length : Int) = 8 * 1 - 4 ∧ (ringCoords 0 0 1).Nodup) ∧
      (∀ k : Int, ((0 : Int) - 1, (0 : Int)) ∉ ringCoords 0 0 k ∧
        ((0 : Int) + 1, (0 : Int)) ∉ ringCoords 0 0 k) ∧
      (∀ (di : dirtyImg) (c1 c2 : Color) (fuel : Nat),
        ringLoop ⟨replaceAt di.img (0 - 1) 0 (0 + 1) 0 c1 c2, di.salt, di.pepper⟩ 0 0 fuel 1 [] =
          ringLoop di 0 0 fuel 1 []) ∧
      (∀ (sortFn : List Color → List Color) (di : dirtyImg) (c1 c2 : Color) (fuel : Nat),
        calculateColor sortFn fuel
            ⟨replaceAt di.img (0 - 1) 0 (0 + 1) 0 c1 c2, di.salt, di.pepper⟩ 0 0 =
          calculateColor sortFn fuel di 0 0)) ∧
    (ringCoords 0 0 1).length = 4 ∧ (ringCoords 0 0 2).length = 12 :=
  ⟨by decide, collectRing_never_visits_offsets 0 0 1 (by decide), by decide, by decide⟩

theorem cleanUp_loops_some (sortFn : List Color → List Color) (fuel : Nat) (di : dirtyImg)
    (B : Rectangle) (d0 : Image)
    (h : ∀ a b, (B.Min.X ≤ a ∧ a < B.Max.X ∧ B.Min.Y ≤ b ∧ b < B.Max.Y) →
      ∃ c, pixelValue sortFn fuel di a b = some c) :
    ∃ o, forRange B.Min.Y B.Max.Y (fun y dst =>
      forRange B.Min.X B.Max.X (fun x dst =>
        match dst with
        | none => none
        | some dst =>
          match (if isDirty di (di.img.At x y) then calculateColor sortFn fuel di x y
            else some (di.img.At x y)) with
          | none => none
          | some c => some (dst.Set x y c)) dst) (some d0) = some o := by
  refine forRange_induction (fun (s : Option Image) => ∃ o, s = some o) _ _ _ _ ⟨d0, rfl⟩ ?_
  intro y s hy1 hy2 hs
  refine forRange_induction (fun (s : Option Image) => ∃ o, s = some o) _ _ _ _ hs ?_
  intro x s1 hx1 hx2 hs1
  obtain ⟨dst, rfl⟩ := hs1
  obtain ⟨c, hc⟩ := h x y ⟨hx1, hx2, hy1, hy2⟩
  unfold pixelValue at hc
  dsimp only
  rw [hc]
  exact ⟨_, rfl⟩

theorem cleanUp_terminates (sortFn : List Color → List Color) (fuel : Nat) (di : dirtyImg)
    (h : ∀ a b, inBounds di.img a b →
      ∃ c, pixelValue sortFn fuel (findSaltAndPepper di) a b = some c) :
    ∃ out, cleanUp sortFn fuel di = some out := by
  obtain ⟨o, ho⟩ := cleanUp_loops_some sortFn fuel (findSaltAndPepper di)
    (findSaltAndPepper di).img.Bounds (NewRGBA (findSaltAndPepper di).img.Bounds)
    (fun a b hab => h a b (by rw [findSaltAndPepper_img] at hab; exact hab))
  cases hc : cleanUp sortFn fuel di with
  | some out => exact ⟨out, rfl⟩
  | none =>
    exfalso
    unfold cleanUp at hc
    dsimp only at hc
    split at hc
    · rename_i hnone
      exact Option.noConfusion (ho.symm.trans hnone)
    · cases hc

theorem calculateColor_of_ringLoop (sortFn : List Color → List Color)
    (hs : SortsByBright sortFn) (fuel : Nat) (di : dirtyImg) (x y : Int) (C : List Color)
    (hC : ringLoop di x y fuel 1 [] = some C) :
    ∃ c, calculateColor sortFn fuel di x y = some c ∧ c ∈ C := by
  have hne : C ≠ [] := ringLoop_ne_nil di x y fuel 1 [] C hC
  have hpos : 1 ≤ C.length := by
    cases C with
    | nil => exact absurd rfl hne
    | cons a t => simp
  have hlen : (sortFn C).length = C.length := (hs.perm C).length_eq
  have hidx : (sortFn C).length / 2 < (sortFn C).length := by omega
  refine ⟨(sortFn C)[(sortFn C).length / 2], ?_, ?_⟩
  · unfold calculateColor
    rw [hC]
    exact List.getElem?_eq_getElem hidx
  · exact (hs.perm C).mem_iff.1 (List.getElem_mem hidx)

theorem calculateColor_of_clean_in_first_ring (sortFn : List Color → List Color)
    (hs : SortsByBright sortFn) (fuel : Nat) (hf : 1 ≤ fuel) (di : dirtyImg) (x y i j : Int)
    (hm : (i, j) ∈ ringCoords x y 1) (hin : inBounds di.img i j)
    (hcl : isDirty di (di.img.At i j) = false) :
    ∃ c a b, calculateColor sortFn fuel di x y = some c ∧ inBounds di.img a b ∧
      isDirty di (di.img.At a b) = false ∧ c = di.img.At a b := by
  have hne : ringSamples di x y 1 ≠ [] :=
    (ringSamples_ne_nil_iff di x y 1).2 ⟨i, j, hm, hin, hcl⟩
  have hloop : ringLoop di x y fuel 1 [] = some (ringSamples di x y 1) := by
    rw [ringLoop_from]
    exact ⟨0, by omega, fun i hi => by omega, by simpa using hne, by simp⟩
  obtain ⟨c, hc, hmem⟩ := calculateColor_of_ringLoop sortFn hs fuel di x y _ hloop
  obtain ⟨a, b, hab, hd, hceq⟩ :=
    ringLoop_clean di x y fuel 1 [] _ hloop (fun c hc => by cases hc) c hmem
  exact ⟨c, a, b, hc, hab, hd, hceq⟩

theorem scenarioA_inBounds (img : Image) (cx cy : Int) (h : ScenarioA img cx cy) (a b : Int) :
    inBounds img a b ↔ (0 ≤ a ∧ a < 3 ∧ 0 ≤ b ∧ b < 3) := by
  unfold inBounds
  rw [h.1]

theorem scenarioA_thresholds (img : Image) (s0 p0 : Nat) (cx cy : Int)
    (h : ScenarioA img cx cy) :
    (findSaltAndPepper ⟨img, s0, p0⟩).salt = 200 ∧
    (findSaltAndPepper ⟨img, s0, p0⟩).pepper = 0 := by
  have hb := h.1
  obtain ⟨_, hcx, hcy, h0, h200, h100⟩ := h
  have hcorner : inBounds img cx cy := by
    unfold inBounds; rw [hb]; dsimp only; omega
  have hcentre : inBounds img 1 1 := by
    unfold inBounds; rw [hb]; dsimp only; omega
  have hval : ∀ a b, inBounds img a b →
      calcBright (img.At a b) = 0 ∨ calcBright (img.At a b) = 100 ∨
        calcBright (img.At a b) = 200 := by
    intro a b hab
    by_cases h1 : a = 1 ∧ b = 1
    · obtain ⟨rfl, rfl⟩ := h1; exact Or.inl h0
    · by_cases h2 : a = cx ∧ b = cy
      · obtain ⟨rfl, rfl⟩ := h2; exact Or.inr (Or.inr h200)
      · exact Or.inr (Or.inl (h100 a b hab h1 h2))
  obtain ⟨hle, ⟨a1, b1, hab1, hs⟩, hge, ⟨a2, b2, hab2, hp⟩⟩ :=
    findSaltAndPepper_extremes ⟨img, s0, p0⟩ (by rw [hb]; decide) (by rw [hb]; decide)
      (by rw [hb]) (by rw [hb])
  have e1 := hle cx cy hcorner
  have e2 := hge 1 1 hcentre
  have v1 := hval a1 b1 hab1
  have v2 := hval a2 b2 hab2
  dsimp only at e1 e2 hs hp v1 v2
  constructor <;> omega

theorem scenarioA_dirty_iff (img : Image) (s0 p0 : Nat) (cx cy : Int)
    (h : ScenarioA img cx cy) (a b : Int) (hab : inBounds img a b) :
    isDirty (findSaltAndPepper ⟨img, s0, p0⟩) (img.At a b) = true ↔
      ((a = 1 ∧ b = 1) ∨ (a = cx ∧ b = cy)) := by
  obtain ⟨hs, hp⟩ := scenarioA_thresholds img s0 p0 cx cy h
  obtain ⟨_, hcx, hcy, h0, h200, h100⟩ := h
  simp only [isDirty, hs, hp, Bool.or_eq_true, beq_iff_eq]
  constructor
  · intro hd
    by_contra hno
    push_neg at hno
    have := h100 a b hab (fun hc => (hno.1 hc.1) hc.2) (fun hc => (hno.2 hc.1) hc.2)
    omega
  · rintro (⟨rfl, rfl⟩ | ⟨rfl, rfl⟩)
    · exact Or.inr h0
    · exact Or.inl h200

theorem scenarioA_clean_brightness (img : Image) (s0 p0 : Nat) (cx cy : Int)
    (h : ScenarioA img cx cy) (a b : Int) (hab : inBounds img a b)
    (hcl : isDirty (findSaltAndPepper ⟨img, s0, p0⟩) (img.At a b) = false) :
    calcBright (img.At a b) = 100 := by
  have hiff := scenarioA_dirty_iff img s0 p0 cx cy h a b hab
  rw [hcl] at hiff
  have hno : ¬ ((a = 1 ∧ b = 1) ∨ (a = cx ∧ b = cy)) := fun hc => by
    have := hiff.2 hc
    cases this
  exact h.2.2.2.2.2 a b hab (fun hc => hno (Or.inl hc)) (fun hc => hno (Or.inr hc))

theorem scenarioA_reconstruct (sortFn : List Color → List Color) (hs : SortsByBright sortFn)
    (fuel : Nat) (hf : 1 ≤ fuel) (img : Image) (s0 p0 : Nat) (cx cy : Int)
    (h : ScenarioA img cx cy) (x y : Int)
    (hxy : (x = 1 ∧ y = 1) ∨ (x = cx ∧ y = cy)) :
    ∃ c, calculateColor sortFn fuel (findSaltAndPepper ⟨img, s0, p0⟩) x y = some c ∧
      calcBright c = 100 := by
  have himg : (findSaltAndPepper ⟨img, s0, p0⟩).img = img := findSaltAndPepper_img _
  have hcx := h.2.1
  have hcy := h.2.2.1
  have hnb : ∃ i j, (i, j) ∈ ringCoords x y 1 ∧ inBounds img i j ∧
      ¬ ((i = 1 ∧ j = 1) ∨ (i = cx ∧ j = cy)) := by
    rcases hxy with ⟨rfl, rfl⟩ | ⟨rfl, rfl⟩
    · refine ⟨1, 0, by decide, (scenarioA_inBounds img cx cy h 1 0).2 (by omega), ?_⟩
      omega
    · refine ⟨x, 1, ?_, (scenarioA_inBounds img x y h x 1).2 (by omega), ?_⟩
      · rw [mem_ringCoords]; omega
      · omega
  obtain ⟨i, j, hm, hin, hno⟩ := hnb
  have hcl : isDirty (findSaltAndPepper ⟨img, s0, p0⟩) (img.At i j) = false := by
    cases hd : isDirty (findSaltAndPepper ⟨img, s0, p0⟩) (img.At i j) with
    | false => rfl
    | true => exact absurd ((scenarioA_dirty_iff img s0 p0 cx cy h i j hin).1 hd) hno
  obtain ⟨c, a, b, hc, hab, hd, hceq⟩ :=
    calculateColor_of_clean_in_first_ring sortFn hs fuel hf
      (findSaltAndPepper ⟨img, s0, p0⟩) x y i j hm (by rw [himg]; exact hin)
      (by rw [himg]; exact hcl)
  rw [himg] at hab hd hceq
  exact ⟨c, hc, by rw [hceq]; exact scenarioA_clean_brightness img s0 p0 cx cy h a b hab hd⟩

/-- C14, as stated, fails on the instance `imgScenario` of Scenario A (corner `(0, 0)`):
`cleanUp` terminates with salt = 200 and pepper = 0, but the output pixel `(1, 0)`, which is
not dirty and has brightness 100 in the input, has brightness 0, and so have the centre and
the corner. -/
theorem scenario_picture_output_is_dark :
    ∃ out, cleanUp insertionSortColors 1 ⟨imgScenario, 0, 0⟩ = some out ∧
      out.salt = 200 ∧ out.pepper = 0 ∧
      calcBright (imgScenario.At 1 0) = 100 ∧
      isDirty (findSaltAndPepper ⟨imgScenario, 0, 0⟩) (imgScenario.At 1 0) = false ∧
      out.img.At 1 0 ≠ imgScenario.At 1 0 ∧
      calcBright (out.img.At 1 0) = 0 ∧
      calcBright (out.img.At 1 1) = 0 ∧
      calcBright (out.img.At 0 0) = 0 := by
  have hsome : (cleanUp insertionSortColors 1 ⟨imgScenario, 0, 0⟩).isSome = true := by decide
  obtain ⟨out, hout⟩ := Option.isSome_iff_exists.1 hsome
  have hval : (cleanUp insertionSortColors 1 ⟨imgScenario, 0, 0⟩).map
      (fun d => (d.salt, d.pepper, d.img.At 1 0, d.img.At 1 1, d.img.At 0 0)) =
      some (200, 0, ⟨0, 0, 0, 65535⟩, ⟨0, 0, 0, 65535⟩, ⟨0, 0, 0, 65535⟩) := by decide
  rw [hout] at hval
  have hp := Option.some.inj hval
  simp only [Prod.mk.injEq] at hp
  obtain ⟨h1, h2, h3, h4, h5⟩ := hp
  refine ⟨out, hout, h1, h2, by decide, by decide, ?_, ?_, ?_, ?_⟩
  · rw [h3]; decide
  · rw [h3]; decide
  · rw [h4]; decide
  · rw [h5]; decide

/-- C14, amended: on every instance of Scenario A, for each of the four corners, `cleanUp`
terminates (one ring suffices), computes salt = 200 and pepper = 0, finds exactly the corner and
the centre dirty, reconstructs for each of them a sample of brightness 100, and hands the
samples of the other seven pixels on unchanged; the output has the bounds of the input and
holds each of the nine samples converted to the 8-bit RGBA model of the destination picture. -/
theorem cleanUp_scenarioA (sortFn : List Color → List Color) (hs : SortsByBright sortFn)
    (fuel : Nat) (hf : 1 ≤ fuel) (img : Image) (s0 p0 : Nat) (cx cy : Int)
    (h : ScenarioA img cx cy) :
    ∃ out, cleanUp sortFn fuel ⟨img, s0, p0⟩ = some out ∧
      out.salt = 200 ∧ out.pepper = 0 ∧ out.img.Bounds = img.Bounds ∧
      (∀ a b, inBounds img a b →
        (isDirty (findSaltAndPepper ⟨img, s0, p0⟩) (img.At a b) = true ↔
          ((a = 1 ∧ b = 1) ∨ (a = cx ∧ b = cy)))) ∧
      (∃ c, calculateColor sortFn fuel (findSaltAndPepper ⟨img, s0, p0⟩) 1 1 = some c ∧
        calcBright c = 100 ∧ out.img.At 1 1 = rgbaModel c) ∧
      (∃ c, calculateColor sortFn fuel (findSaltAndPepper ⟨img, s0, p0⟩) cx cy = some c ∧
        calcBright c = 100 ∧ out.img.At cx cy = rgbaModel c) ∧
      (∀ a b, inBounds img a b → ¬ (a = 1 ∧ b = 1) → ¬ (a = cx ∧ b = cy) →
        out.img.At a b = rgbaModel (img.At a b)) := by
  have himg : (findSaltAndPepper ⟨img, s0, p0⟩).img = img := findSaltAndPepper_img _
  have hdirty := scenarioA_dirty_iff img s0 p0 cx cy h
  have hpv : ∀ a b, inBounds img a b →
      pixelValue sortFn fuel (findSaltAndPepper ⟨img, s0, p0⟩) a b =
        if (a = 1 ∧ b = 1) ∨ (a = cx ∧ b = cy) then
          calculateColor sortFn fuel (findSaltAndPepper ⟨img, s0, p0⟩) a b
        else some (img.At a b) := by
    intro a b hab
    unfold pixelValue
    rw [himg]
    by_cases hc : (a = 1 ∧ b = 1) ∨ (a = cx ∧ b = cy)
    · rw [if_pos hc, if_pos ((hdirty a b hab).2 hc)]
    · rw [if_neg hc, if_neg (fun hd => hc ((hdirty a b hab).1 hd))]
  have hterm : ∀ a b, inBounds img a b →
      ∃ c, pixelValue sortFn fuel (findSaltAndPepper ⟨img, s0, p0⟩) a b = some c := by
    intro a b hab
    rw [hpv a b hab]
    by_cases hc : (a = 1 ∧ b = 1) ∨ (a = cx ∧ b = cy)
    · rw [if_pos hc]
      obtain ⟨c, hcc, _⟩ := scenarioA_reconstruct sortFn hs fuel hf img s0 p0 cx cy h a b hc
      exact ⟨c, hcc⟩
    · rw [if_neg hc]
      exact ⟨_, rfl⟩
  obtain ⟨out, hout⟩ := cleanUp_terminates sortFn fuel ⟨img, s0, p0⟩ hterm
  obtain ⟨hsalt, hpep, hb, hst⟩ := cleanUp_spec sortFn fuel ⟨img, s0, p0⟩ out hout
  obtain ⟨hs200, hp0⟩ := scenarioA_thresholds img s0 p0 cx cy h
  have hrec : ∀ x y, ((x = 1 ∧ y = 1) ∨ (x = cx ∧ y = cy)) →
      ∃ c, calculateColor sortFn fuel (findSaltAndPepper ⟨img, s0, p0⟩) x y = some c ∧
        calcBright c = 100 ∧ out.img.At x y = rgbaModel c := by
    intro x y hxy
    have hin : inBounds img x y := by
      rw [scenarioA_inBounds img cx cy h]
      have hcx := h.2.1
      have hcy := h.2.2.1
      omega
    obtain ⟨c, hcc, hbr⟩ := scenarioA_reconstruct sortFn hs fuel hf img s0 p0 cx cy h x y hxy
    obtain ⟨c1, hc1, hat⟩ := hst x y hin
    rw [hpv x y hin, if_pos hxy, hcc] at hc1
    cases hc1
    exact ⟨c, hcc, hbr, hat⟩
  refine ⟨out, hout, by rw [hsalt]; exact hs200, by rw [hpep]; exact hp0, hb, hdirty,
    hrec 1 1 (Or.inl ⟨rfl, rfl⟩), hrec cx cy (Or.inr ⟨rfl, rfl⟩), ?_⟩
  intro a b hab h1 h2
  obtain ⟨c1, hc1, hat⟩ := hst a b hab
  rw [hpv a b hab, if_neg (fun hc => hc.elim h1 h2)] at hc1
  cases hc1
  exact hat

theorem imgScenario_scenarioA : ScenarioA imgScenario 0 0 := by
  refine ⟨rfl, Or.inl rfl, Or.inl rfl, by decide, by decide, ?_⟩
  intro a b hab h1 h2
  have hab2 : 0 ≤ a ∧ a < 3 ∧ 0 ≤ b ∧ b < 3 := by
    have := hab
    simp only [inBounds, imgScenario, gridImage] at this
    omega
  obtain ⟨ha1, ha2, hb1, hb2⟩ := hab2
  have ha : a = 0 ∨ a = 1 ∨ a = 2 := by omega
  have hb : b = 0 ∨ b = 1 ∨ b = 2 := by omega
  rcases ha with rfl | rfl | rfl <;> rcases hb with rfl | rfl | rfl <;>
    first
    | decide
    | omega

theorem cleanUp_scenarioA_witness :
    SortsByBright insertionSortColors ∧ 1 ≤ 1 ∧ ScenarioA imgScenario 0 0 ∧
    ∃ out, cleanUp insertionSortColors 1 ⟨imgScenario, 0, 0⟩ = some out ∧
      out.salt = 200 ∧ out.pepper = 0 ∧ out.img.Bounds = imgScenario.Bounds ∧
      (∀ a b, inBounds imgScenario a b →
        (isDirty (findSaltAndPepper ⟨imgScenario, 0, 0⟩) (imgScenario.At a b) = true ↔
          ((a = 1 ∧ b = 1) ∨ (a = 0 ∧ b = 0)))) ∧
      (∃ c, calculateColor insertionSortColors 1 (findSaltAndPepper ⟨imgScenario, 0, 0⟩) 1 1 =
          some c ∧ calcBright c = 100 ∧ out.img.At 1 1 = rgbaModel c) ∧
      (∃ c, calculateColor insertionSortColors 1 (findSaltAndPepper ⟨imgScenario, 0, 0⟩) 0 0 =
          some c ∧ calcBright c = 100 ∧ out.img.At 0 0 = rgbaModel c) ∧
      (∀ a b, inBounds imgScenario a b → ¬ (a = 1 ∧ b = 1) → ¬ (a = 0 ∧ b = 0) →
        out.img.At a b = rgbaModel (imgScenario.At a b)) :=
  ⟨insertionSortColors_sorts, le_refl 1, imgScenario_scenarioA,
    cleanUp_scenarioA insertionSortColors insertionSortColors_sorts 1 (le_refl 1) imgScenario
      0 0 0 0 imgScenario_scenarioA⟩

end SaltAndPepper
